import Mathlib

/-!
Verification of the directory-summary tool (`pythonSummary29ph50JZ7.py`).

The program walks a directory tree, writes a textual outline of the tree plus
the concatenated contents of every UTF-8-decodable, non-skipped file into a
"summary" document, and writes a second "lengths" document listing each such
file's byte size in descending order together with the grand total.

The shallow embedding below models:
  * the filesystem as an inductive tree of named entries
    (a file carries the outcome of its two opens: the classification-time
    read and the aggregation-time read, plus its `os.path.getsize` result);
  * Python strings by Lean `String`, with the Python operations
    (`startswith`, `in`-substring, `str.replace(pat, "")`, `str.count`)
    implemented as executable functions on the underlying character lists;
  * Python's strict UTF-8 decoder (`open(..., encoding="utf-8").read()`);
  * both `os.walk` passes of the source as structural recursions over the
    entry tree, pruning subdirectories exactly as `dirs[:] = [...]` does;
  * an uncaught exception inside the second walk as an `aborted` flag that
    freezes the accumulated output and prevents the lengths file from being
    written (as in the source, where the lengths file is written only after
    the walk completes).
-/

namespace PySummary

/-! ## String utilities (modelling Python string operations) -/

/-- Does `pat` occur as a contiguous substring of `s`?  Models Python's
`pat in s`. -/
def occursIn (pat : List Char) : List Char → Bool
  | [] => pat.isEmpty
  | c :: s => pat.isPrefixOf (c :: s) || occursIn pat s

/-- Fuel-bounded scan for `removeOccs`; the fuel is structural so the
function computes inside the kernel.  One unit of fuel is spent per examined
position, so `s.length + 1` units always suffice. -/
def removeOccsF : Nat → List Char → List Char → List Char
  | 0, _, s => s
  | fuel + 1, pat, s =>
    match s with
    | [] => []
    | c :: s2 =>
      if pat ≠ [] ∧ pat.isPrefixOf (c :: s2) then
        removeOccsF fuel pat ((c :: s2).drop pat.length)
      else
        c :: removeOccsF fuel pat s2

/-- Remove every (leftmost-first, non-overlapping) occurrence of `pat` from
`s`.  Models Python's `s.replace(pat, "")` for a non-empty pattern `pat`
(every call site passes the non-empty current working directory). -/
def removeOccs (pat s : List Char) : List Char := removeOccsF (s.length + 1) pat s

/-- `s.startswith(pre)` of Python. -/
def strStarts (s pre : String) : Bool := pre.data.isPrefixOf s.data

/-- `sub in s` of Python. -/
def strHas (s sub : String) : Bool := occursIn sub.data s.data

/-- `s.count("/")` of Python, used with `os.sep = "/"`. -/
def countSep (s : List Char) : Nat := s.count '/'

/-- `" " * n` of Python. -/
def spaces : Nat → String
  | 0 => ""
  | n + 1 => " " ++ spaces n

/-- `os.path.basename`: the part of the path after the last separator. -/
def baseNameAux (acc : List Char) : List Char → List Char
  | [] => acc.reverse
  | c :: s => if c = '/' then baseNameAux [] s else baseNameAux (c :: acc) s

/-- `os.path.basename` on strings. -/
def baseName (p : String) : String := ⟨baseNameAux [] p.data⟩

/-- `os.path.join(root, name)` on POSIX, for a relative `name`. -/
def joinPath (root name : String) : String := root ++ "/" ++ name

/-- `os.path.relpath(p)` with the current working directory `sp`, for the
paths the program builds (which all lie strictly under `sp`): strips the
leading `sp ++ "/"`. -/
def relpathFrom (sp p : String) : String :=
  if (sp ++ "/").data.isPrefixOf p.data then
    ⟨p.data.drop (sp.data.length + 1)⟩
  else p

/-- Decimal representation of a natural number, one digit per character;
models Python's `f"{n}"` for a non-negative int. -/
def digitChar (n : Nat) : Char := Char.ofNat (48 + n % 10)

/-- Accumulator loop for `natRepr`, fuel-bounded so that it computes inside
the kernel; one digit is produced per unit of fuel, and a number `n` has at
most `n + 1` decimal digits, so the wrapper's fuel always suffices. -/
def natReprAux : Nat → Nat → List Char → List Char
  | 0, _, acc => acc
  | fuel + 1, n, acc =>
    if n < 10 then digitChar n :: acc
    else natReprAux fuel (n / 10) (digitChar n :: acc)

/-- Decimal representation of a natural number as a string. -/
def natRepr (n : Nat) : String := ⟨natReprAux (n + 1) n []⟩

/-- Split a character list at every newline.  A document that ends with a
newline yields a final empty segment (the text after the last newline). -/
def splitNL : List Char → List (List Char)
  | [] => [[]]
  | c :: s =>
    if c = '\n' then [] :: splitNL s
    else
      match splitNL s with
      | [] => [[c]]
      | t :: ts => (c :: t) :: ts

/-- No newline character occurs in the list. -/
def noNL (s : List Char) : Bool := !s.contains '\n'

/-! ## UTF-8 decoding (Python's strict `utf-8` codec) -/

/-- Is `b` a UTF-8 continuation byte (`0x80..0xBF`)? -/
def utf8Cont (b : Nat) : Bool := 0x80 ≤ b && b ≤ 0xBF

/-- Strict UTF-8 decoding of a byte list into characters, rejecting overlong
encodings, surrogates, code points above `U+10FFFF` and truncated sequences,
exactly as Python's `utf-8` codec in strict mode does.  `none` models a
`UnicodeDecodeError`. -/
def decodeUtf8 : List Nat → Option (List Char)
  | [] => some []
  | b0 :: rest =>
    if b0 ≤ 0x7F then
      (decodeUtf8 rest).map (fun cs => Char.ofNat b0 :: cs)
    else if 0xC2 ≤ b0 && b0 ≤ 0xDF then
      match rest with
      | b1 :: rest2 =>
        if utf8Cont b1 then
          (decodeUtf8 rest2).map
            (fun cs => Char.ofNat ((b0 - 0xC0) * 0x40 + (b1 - 0x80)) :: cs)
        else none
      | [] => none
    else if 0xE0 ≤ b0 && b0 ≤ 0xEF then
      match rest with
      | b1 :: b2 :: rest3 =>
        let ok1 :=
          if b0 = 0xE0 then 0xA0 ≤ b1 && b1 ≤ 0xBF
          else if b0 = 0xED then 0x80 ≤ b1 && b1 ≤ 0x9F
          else utf8Cont b1
        if ok1 && utf8Cont b2 then
          (decodeUtf8 rest3).map
            (fun cs =>
              Char.ofNat ((b0 - 0xE0) * 0x1000 + (b1 - 0x80) * 0x40 + (b2 - 0x80)) :: cs)
        else none
      | _ => none
    else if 0xF0 ≤ b0 && b0 ≤ 0xF4 then
      match rest with
      | b1 :: b2 :: b3 :: rest4 =>
        let ok1 :=
          if b0 = 0xF0 then 0x90 ≤ b1 && b1 ≤ 0xBF
          else if b0 = 0xF4 then 0x80 ≤ b1 && b1 ≤ 0x8F
          else utf8Cont b1
        if ok1 && utf8Cont b2 && utf8Cont b3 then
          (decodeUtf8 rest4).map
            (fun cs =>
              Char.ofNat ((b0 - 0xF0) * 0x40000 + (b1 - 0x80) * 0x1000 +
                (b2 - 0x80) * 0x40 + (b3 - 0x80)) :: cs)
        else none
      | _ => none
    else none

/-! ## Filesystem model -/

/-- The observable behaviour of one file on disk.

`read1` is the outcome of the classification-time open
(`is_text_file`): `none` models an `IOError`, `some bs` the raw bytes read.
`read2` is the outcome of the later aggregation-time open
(`append_file_content`); the two may differ because the environment can
change between the two opens (e.g. the file is deleted or replaced).
`size` is the result of `os.path.getsize`. -/
structure FileData where
  name : String
  read1 : Option (List Nat)
  read2 : Option (List Nat)
  size : Nat
  deriving Repr, DecidableEq

/-- A filesystem entry: a file, or a directory with its listing (the list
order models the order `os.walk` reports children in). -/
inductive Entry where
  | file : FileData → Entry
  | dir : String → List Entry → Entry
  deriving Repr

/-- The name of an entry. -/
def entryName : Entry → String
  | .file fd => fd.name
  | .dir d _ => d

/-- The files of a directory listing, in listing order (`files` of
`os.walk`). -/
def filesOf : List Entry → List FileData
  | [] => []
  | .file fd :: es => fd :: filesOf es
  | .dir _ _ :: es => filesOf es

/-! ## The source functions -/

/-- `is_text_file` (source lines 4-10): try to open and fully decode the file
as UTF-8; `True` on success, `False` on `UnicodeDecodeError` or `IOError`.
The `try`/`except` is total: no exception escapes. -/
def is_text_file (fd : FileData) : Bool :=
  match fd.read1 with
  | none => false
  | some bs => (decodeUtf8 bs).isSome

/-- `should_skip_item` (source lines 12-14): hidden names and names
containing the run identifier. -/
def should_skip_item (item_name identifier : String) : Bool :=
  strStarts item_name "." || strHas item_name identifier

/-- The directory-pruning filter used identically at source lines 20 and 69:
`dirs[:] = [d for d in dirs if not d.startswith('.') and d not in skip_items]`.
Note: the run identifier is *not* consulted here. -/
def dirKept (skip_items : List String) (d : String) : Bool :=
  !strStarts d "." && !skip_items.contains d

/-- The file filter of the second walk (source line 72,
`should_skip_item(file, identifier) or file in skip_items` negated) and of
the tree's file lines (source line 30, the Boolean-equal
`not should_skip_item(f, identifier) and f not in skip_items`). -/
def fileKept (identifier : String) (skip_items : List String) (f : String) : Bool :=
  !(should_skip_item f identifier || skip_items.contains f)

/-! ### Tree renderer (`create_directory_tree`, source lines 16-32) -/

/-- One line of the tree output, remembering its indentation width and the
name printed. -/
inductive TreeLine where
  | dirLine : Nat → String → TreeLine
  | fileLine : Nat → String → TreeLine
  deriving Repr, DecidableEq

/-- Rendering of one tree line, exactly as the f-strings of source lines 27
and 31: `f"{indent}{basename}/\n"` and `f"{subindent}{f}\n"`. -/
def renderTreeLine : TreeLine → String
  | .dirLine ind b => spaces ind ++ b ++ "/\n"
  | .fileLine ind f => spaces ind ++ f ++ "\n"

/-- The block of lines one `os.walk` iteration appends for the directory at
path `rootPath` (source lines 22-31): the level is
`root.replace(startpath, '').count(os.sep)`; the directory's own line and its
file lines are emitted only if its basename is neither in `skip_items` nor
hidden. -/
def treeBlock (startpath identifier : String) (skip_items : List String)
    (rootPath : String) (children : List Entry) : List TreeLine :=
  let level := countSep (removeOccs startpath.data rootPath.data)
  let b := baseName rootPath
  if !skip_items.contains b && !strStarts b "." then
    .dirLine (4 * level) b ::
      (filesOf children).filterMap (fun fd =>
        if fileKept identifier skip_items fd.name then
          some (.fileLine (4 * (level + 1)) fd.name)
        else none)
  else []

/-- The lines contributed by the recursion of `os.walk` into the pruned
subdirectories of a directory listing (source line 20 prunes, `os.walk`
then visits each kept subdirectory top-down, emitting its block before its
own subdirectories). -/
def treeSub (startpath identifier : String) (skip_items : List String) :
    String → List Entry → List TreeLine
  | _, [] => []
  | rootPath, .file _ :: es => treeSub startpath identifier skip_items rootPath es
  | rootPath, .dir d cs :: es =>
    if dirKept skip_items d then
      treeBlock startpath identifier skip_items (joinPath rootPath d) cs ++
        treeSub startpath identifier skip_items (joinPath rootPath d) cs ++
        treeSub startpath identifier skip_items rootPath es
    else
      treeSub startpath identifier skip_items rootPath es

/-- All lines of the tree output, in emission order: the root's own block
(`os.walk` yields `startpath` first), then the recursion. -/
def treeLines (startpath identifier : String) (skip_items : List String)
    (children : List Entry) : List TreeLine :=
  treeBlock startpath identifier skip_items startpath children ++
    treeSub startpath identifier skip_items startpath children

/-- `create_directory_tree` (source lines 16-32): the concatenation, in
emission order, of the rendered lines. -/
def create_directory_tree (startpath : String) (children : List Entry)
    (identifier : String) (skip_items : List String) : String :=
  String.join ((treeLines startpath identifier skip_items children).map renderTreeLine)

/-! ### Content aggregation and length collection (source lines 34-40, 65-79) -/

/-- `append_file_content` (source lines 34-40).  The function first appends
`f"\n\n\n{relative_path}\n\"\"\"\n"` to the summary, then re-opens the file
and appends its decoded contents and the closing `"\n\"\"\"\n"`.  The
re-open/read is *not* wrapped in a `try`: a failure (`IOError` or
`UnicodeDecodeError` of the second read) escapes.  The result is the text
actually appended to the summary, paired with `true` when such an uncaught
exception occurred (after the path header was already written). -/
def append_file_content (sp filepath : String) (fd : FileData) : String × Bool :=
  let relative_path := relpathFrom sp filepath
  let headerPart := "\n\n\n" ++ relative_path ++ "\n\"\"\"\n"
  match fd.read2 with
  | none => (headerPart, true)
  | some bs =>
    match decodeUtf8 bs with
    | none => (headerPart, true)
    | some cs => (headerPart ++ String.mk cs ++ "\n\"\"\"\n", false)

/-- The mutable state of the second walk: the text appended to the summary
file so far (`out`), the `file_lengths` list (source line 65), and whether an
uncaught exception has terminated the walk (`aborted`). -/
structure Acc where
  out : String
  lens : List (Nat × String)
  aborted : Bool
  deriving Repr, DecidableEq

/-- The initial state of the second walk. -/
def Acc.init : Acc := ⟨"", [], false⟩

/-- The body of `for file in files` (source lines 71-79): skip hidden /
identifier-bearing / skip-set names; classify; on success record
`(os.path.getsize(filepath), filepath)` and then append the file's content,
which may raise (aborting the run). -/
def processFile (sp identifier : String) (skip_items : List String)
    (rootPath : String) (fd : FileData) (acc : Acc) : Acc :=
  if acc.aborted then acc
  else if should_skip_item fd.name identifier || skip_items.contains fd.name then acc
  else
    let filepath := joinPath rootPath fd.name
    if is_text_file fd then
      let acc1 : Acc := { acc with lens := acc.lens ++ [(fd.size, filepath)] }
      let afc := append_file_content sp filepath fd
      { acc1 with out := acc1.out ++ afc.1, aborted := afc.2 }
    else acc

/-- The whole `for file in files` loop of one `os.walk` iteration. -/
def walkFiles (sp identifier : String) (skip_items : List String)
    (rootPath : String) : List FileData → Acc → Acc
  | [], acc => acc
  | fd :: fds, acc =>
    walkFiles sp identifier skip_items rootPath fds
      (processFile sp identifier skip_items rootPath fd acc)

/-- The recursion of the second `os.walk` (source lines 67-79) below a
directory whose listing is being scanned: subdirectories surviving the
pruning of source line 69 are visited top-down, files of each visited
directory first.  An `aborted` state propagates unchanged (the exception
unwinds the walk). -/
def walkSub (sp identifier : String) (skip_items : List String) :
    String → List Entry → Acc → Acc
  | _, [], acc => acc
  | rootPath, .file _ :: es, acc =>
    if acc.aborted then acc
    else walkSub sp identifier skip_items rootPath es acc
  | rootPath, .dir d cs :: es, acc =>
    if acc.aborted then acc
    else if dirKept skip_items d then
      walkSub sp identifier skip_items rootPath es
        (walkSub sp identifier skip_items (joinPath rootPath d) cs
          (walkFiles sp identifier skip_items (joinPath rootPath d) (filesOf cs) acc))
    else
      walkSub sp identifier skip_items rootPath es acc

/-- The complete second walk of `main` (source lines 65-79), starting from
the walk root (whose own files are processed first, with no check on the
root's basename). -/
def mainWalk (sp identifier : String) (skip_items : List String)
    (children : List Entry) : Acc :=
  walkSub sp identifier skip_items sp children
    (walkFiles sp identifier skip_items sp (filesOf children) Acc.init)

/-! ### Sorting and the lengths document (source lines 81-92) -/

/-- Stable descending insertion by first component: the element is placed
after every earlier element whose key is greater than or equal to its own. -/
def insertDesc (x : Nat × String) : List (Nat × String) → List (Nat × String)
  | [] => [x]
  | y :: ys => if y.1 < x.1 then x :: y :: ys else y :: insertDesc x ys

/-- `file_lengths.sort(reverse=True, key=lambda x: x[0])` (source line 82):
Python's sort is stable, and with `reverse=True` elements with equal keys
keep their original relative order.  This stable descending sort computes
the same list. -/
def sortDesc (l : List (Nat × String)) : List (Nat × String) :=
  l.foldl (fun acc x => insertDesc x acc) []

/-- One block of the lengths document (source line 92):
`f"{relative_path}\n{length}\n\n"`. -/
def lengthsEntry (sp : String) (e : Nat × String) : String :=
  relpathFrom sp e.2 ++ "\n" ++ natRepr e.1 ++ "\n\n"

/-- The full lengths document (source lines 88-92): the header
`f"Total Length: {total_length}\n\n"` followed by one block per sorted
entry. -/
def mkLengthsDoc (sp : String) (total : Nat) (sorted : List (Nat × String)) : String :=
  "Total Length: " ++ natRepr total ++ "\n\n" ++
    String.join (sorted.map (lengthsEntry sp))

/-- The observable outcome of one run: the contents of the summary file, and
the contents of the lengths file if the run completed (`none` when the run
was terminated by an uncaught exception, since the lengths file is written
only after the walk finishes). -/
structure RunResult where
  summary : String
  lengthsDoc : Option String
  deriving Repr, DecidableEq

/-- `main` (source lines 49-92) on a filesystem whose current working
directory is `sp` with listing `children`: phase 1 writes the tree, phase 2
walks again appending contents and collecting `file_lengths`; if phase 2
raised, the summary file is left as written so far and the lengths file is
never created; otherwise the lengths list is sorted descending and written
with its total. -/
def runMain (sp : String) (children : List Entry) : RunResult :=
  let identifier := "29ph50JZ7"
  let skip_items := ["Vm.json", "VmSafe.json"]
  let directory_tree := create_directory_tree sp children identifier skip_items
  let acc := mainWalk sp identifier skip_items children
  if acc.aborted then
    { summary := directory_tree ++ acc.out, lengthsDoc := none }
  else
    let sorted := sortDesc acc.lens
    let total_length := (sorted.map Prod.fst).sum
    { summary := directory_tree ++ acc.out,
      lengthsDoc := some (mkLengthsDoc sp total_length sorted) }

/-- The `Acc` reached by phase 2 of `runMain` (the hardcoded identifier and
skip list of `main`, source lines 52 and 57). -/
def runAcc (sp : String) (children : List Entry) : Acc :=
  mainWalk sp "29ph50JZ7" ["Vm.json", "VmSafe.json"] children

/-! ## Specification-side characterizations

Direct, walk-free descriptions of what the two passes produce, written from
the specification's (amended) words: a file is kept iff its name passes all
three skip rules and it classifies as text; a *directory* is descended into
iff its name is not hidden and not in the skip set (the run identifier is
not consulted for directories — the amendment forced by the code). -/

/-- Decoded text of the aggregation-time read (used only when that read
succeeds). -/
def contentOf (fd : FileData) : String :=
  match fd.read2 with
  | none => ""
  | some bs =>
    match decodeUtf8 bs with
    | none => ""
    | some cs => String.mk cs

/-- The `(size, absolute path)` records contributed by the files of a single
directory listing. -/
def specLensFiles (identifier : String) (skip_items : List String)
    (rootPath : String) (fds : List FileData) : List (Nat × String) :=
  fds.filterMap fun fd =>
    if fileKept identifier skip_items fd.name && is_text_file fd then
      some (fd.size, joinPath rootPath fd.name)
    else none

/-- The `(size, absolute path)` records contributed by the kept
subdirectories of a listing, in walk order. -/
def specLensSub (identifier : String) (skip_items : List String) :
    String → List Entry → List (Nat × String)
  | _, [] => []
  | rootPath, .file _ :: es => specLensSub identifier skip_items rootPath es
  | rootPath, .dir d cs :: es =>
    if dirKept skip_items d then
      specLensFiles identifier skip_items (joinPath rootPath d) (filesOf cs) ++
        specLensSub identifier skip_items (joinPath rootPath d) cs ++
        specLensSub identifier skip_items rootPath es
    else
      specLensSub identifier skip_items rootPath es

/-- All `(size, absolute path)` records of a run, in discovery order. -/
def specLens (identifier : String) (skip_items : List String)
    (sp : String) (children : List Entry) : List (Nat × String) :=
  specLensFiles identifier skip_items sp (filesOf children) ++
    specLensSub identifier skip_items sp children

/-- The `(relative path, contents)` content blocks contributed by the files
of a single directory listing. -/
def specBlocksFiles (identifier : String) (skip_items : List String)
    (sp rootPath : String) (fds : List FileData) : List (String × String) :=
  fds.filterMap fun fd =>
    if fileKept identifier skip_items fd.name && is_text_file fd then
      some (relpathFrom sp (joinPath rootPath fd.name), contentOf fd)
    else none

/-- The content blocks contributed by the kept subdirectories of a listing,
in walk order. -/
def specBlocksSub (identifier : String) (skip_items : List String) (sp : String) :
    String → List Entry → List (String × String)
  | _, [] => []
  | rootPath, .file _ :: es => specBlocksSub identifier skip_items sp rootPath es
  | rootPath, .dir d cs :: es =>
    if dirKept skip_items d then
      specBlocksFiles identifier skip_items sp (joinPath rootPath d) (filesOf cs) ++
        specBlocksSub identifier skip_items sp (joinPath rootPath d) cs ++
        specBlocksSub identifier skip_items sp rootPath es
    else
      specBlocksSub identifier skip_items sp rootPath es

/-- All content blocks of a run, in discovery order. -/
def specBlocks (identifier : String) (skip_items : List String)
    (sp : String) (children : List Entry) : List (String × String) :=
  specBlocksFiles identifier skip_items sp sp (filesOf children) ++
    specBlocksSub identifier skip_items sp sp children

/-- The rendering of one content block exactly as `append_file_content`
writes it when no exception occurs. -/
def renderBlock (b : String × String) : String :=
  "\n\n\n" ++ b.1 ++ "\n\"\"\"\n" ++ b.2 ++ "\n\"\"\"\n"

/-- Does the aggregation-time read of this file raise (`IOError` on the
re-open, or `UnicodeDecodeError` on the second decode)? -/
def fileAggFails (fd : FileData) : Bool :=
  match fd.read2 with
  | none => true
  | some bs => (decodeUtf8 bs).isNone

/-- Does some qualifying file of this listing abort the aggregation pass? -/
def aggFailFiles (identifier : String) (skip_items : List String)
    (fds : List FileData) : Bool :=
  fds.any fun fd =>
    fileKept identifier skip_items fd.name && is_text_file fd && fileAggFails fd

/-- Does some qualifying file below a kept subdirectory of this listing
abort the aggregation pass? -/
def aggFailSub (identifier : String) (skip_items : List String) :
    List Entry → Bool
  | [] => false
  | .file _ :: es => aggFailSub identifier skip_items es
  | .dir d cs :: es =>
    (dirKept skip_items d &&
        (aggFailFiles identifier skip_items (filesOf cs) ||
          aggFailSub identifier skip_items cs)) ||
      aggFailSub identifier skip_items es

/-- Does any qualifying file reached by the second walk abort the run? -/
def specAggFail (identifier : String) (skip_items : List String)
    (children : List Entry) : Bool :=
  aggFailFiles identifier skip_items (filesOf children) ||
    aggFailSub identifier skip_items children

/-! ### Depth-indexed tree lines (specification side, for the indentation
claim) -/

/-- The tree block of one directory, with indentation taken from the true
depth: `4 * depth` for the directory line, `4 * (depth + 1)` for its file
lines; same filters as the code. -/
def specTreeBlock (identifier : String) (skip_items : List String)
    (depth : Nat) (b : String) (fds : List FileData) : List TreeLine :=
  if !skip_items.contains b && !strStarts b "." then
    .dirLine (4 * depth) b ::
      fds.filterMap (fun fd =>
        if fileKept identifier skip_items fd.name then
          some (.fileLine (4 * (depth + 1)) fd.name)
        else none)
  else []

/-- Depth-indexed tree lines of the kept subdirectories of a listing. -/
def specTreeSub (identifier : String) (skip_items : List String) :
    Nat → List Entry → List TreeLine
  | _, [] => []
  | depth, .file _ :: es => specTreeSub identifier skip_items depth es
  | depth, .dir d cs :: es =>
    if dirKept skip_items d then
      specTreeBlock identifier skip_items (depth + 1) d (filesOf cs) ++
        specTreeSub identifier skip_items (depth + 1) cs ++
        specTreeSub identifier skip_items depth es
    else
      specTreeSub identifier skip_items depth es

/-- All tree lines with depth-proportional indentation: the root at depth 0
labelled by its basename, every directory at depth `d` indented `4 * d`, its
files `4 * (d + 1)`. -/
def specTreeLines (startpath identifier : String) (skip_items : List String)
    (children : List Entry) : List TreeLine :=
  specTreeBlock identifier skip_items 0 (baseName startpath) (filesOf children) ++
    specTreeSub identifier skip_items 0 children

/-! ### Well-formedness of a modelled filesystem -/

/-- A plausible filesystem entry name: non-empty, and containing neither the
path separator nor a newline. -/
def nameOk (s : String) : Bool :=
  !s.data.isEmpty && s.data.all fun c => c ≠ '/' && c ≠ '\n'

/-- Every name in the tree is plausible. -/
def wfNames : List Entry → Bool
  | [] => true
  | .file fd :: es => nameOk fd.name && wfNames es
  | .dir d cs :: es => nameOk d && wfNames cs && wfNames es

/-- No two names in the list coincide. -/
def namesNodup : List String → Bool
  | [] => true
  | s :: ss => !ss.contains s && namesNodup ss

/-- Sibling names are pairwise distinct at every level below the given
listing. -/
def wfSub : List Entry → Bool
  | [] => true
  | .file _ :: es => wfSub es
  | .dir _ cs :: es => (namesNodup (cs.map entryName) && wfSub cs) && wfSub es

/-- Sibling names are pairwise distinct at every level (as on a real
filesystem). -/
def wfTree (es : List Entry) : Bool :=
  namesNodup (es.map entryName) && wfSub es

/-- For the indentation claim: the start path string never reappears inside
the relative portion of any directory path reached by the walk (`rel` is the
relative portion of the current directory, each subdirectory extends it). -/
def noReoccur (pat : List Char) : List Char → List Entry → Bool
  | _, [] => true
  | rel, .file _ :: es => noReoccur pat rel es
  | rel, .dir d cs :: es =>
    (!occursIn pat (rel ++ '/' :: d.data) &&
        noReoccur pat (rel ++ '/' :: d.data) cs) &&
      noReoccur pat rel es

/-! ## Basic string lemmas -/

theorem joinPath_data (rp d : String) :
    (joinPath rp d).data = rp.data ++ '/' :: d.data := by
  show (rp ++ "/" ++ d).data = _
  rw [String.data_append, String.data_append]
  simp

theorem join_foldl_data (l : List String) (a : String) :
    (l.foldl (· ++ ·) a).data = a.data ++ (l.map String.data).flatten := by
  induction l generalizing a with
  | nil => simp
  | cons s l ih =>
    simp only [List.foldl_cons, ih, String.data_append, List.map_cons,
      List.flatten_cons, List.append_assoc]

theorem join_data (l : List String) :
    (String.join l).data = (l.map String.data).flatten := by
  show (l.foldl (· ++ ·) "").data = _
  rw [join_foldl_data]
  rfl

theorem join_append_str (l1 l2 : List String) :
    String.join (l1 ++ l2) = String.join l1 ++ String.join l2 := by
  apply String.ext
  simp [join_data, String.data_append]

theorem noNL_iff_mem (s : List Char) : noNL s = true ↔ '\n' ∉ s := by
  rw [noNL, Bool.not_eq_true']
  constructor
  · intro h hm
    have := List.elem_iff.mpr hm
    have h2 : List.elem '\n' s = false := h
    rw [h2] at this
    exact Bool.false_ne_true this
  · intro h
    cases hc : s.contains '\n'
    · rfl
    · exact absurd (List.elem_iff.mp hc) h

theorem noNL_iff (s : List Char) : noNL s = true ↔ ∀ c ∈ s, c ≠ '\n' := by
  rw [noNL_iff_mem]
  constructor
  · intro h c hc hcn
    exact h (hcn ▸ hc)
  · intro h hm
    exact h _ hm rfl

theorem splitNL_append (a b : List Char) (h : ∀ c ∈ a, c ≠ '\n') :
    splitNL (a ++ '\n' :: b) = a :: splitNL b := by
  induction a with
  | nil => simp [splitNL]
  | cons c a ih =>
    have hc : c ≠ '\n' := h c (by simp)
    have ih2 := ih (fun x hx => h x (by simp [hx]))
    show splitNL (c :: (a ++ '\n' :: b)) = _
    rw [splitNL, if_neg hc, ih2]

theorem digitChar_ne_nl (n : Nat) : digitChar n ≠ '\n' := by
  unfold digitChar
  have h : n % 10 < 10 := Nat.mod_lt _ (by omega)
  set m := n % 10 with hm
  interval_cases m <;> decide

theorem natReprAux_ne_nl :
    ∀ (fuel n : Nat) (acc : List Char), (∀ c ∈ acc, c ≠ '\n') →
      ∀ c ∈ natReprAux fuel n acc, c ≠ '\n' := by
  intro fuel
  induction fuel with
  | zero =>
    intro n acc hacc c hc
    rw [natReprAux] at hc
    exact hacc c hc
  | succ fuel ih =>
    intro n acc hacc c hc
    rw [natReprAux] at hc
    by_cases h : n < 10
    · rw [if_pos h] at hc
      rcases List.mem_cons.mp hc with rfl | hc2
      · exact digitChar_ne_nl n
      · exact hacc c hc2
    · rw [if_neg h] at hc
      refine ih (n / 10) _ ?_ c hc
      intro x hx
      rcases List.mem_cons.mp hx with rfl | hx2
      · exact digitChar_ne_nl n
      · exact hacc x hx2

theorem natRepr_ne_nl (n : Nat) : ∀ c ∈ (natRepr n).data, c ≠ '\n' :=
  natReprAux_ne_nl (n + 1) n [] (by simp)

theorem isPrefixOf_occursIn (pat s : List Char) (h : pat.isPrefixOf s = true) :
    occursIn pat s = true := by
  cases s with
  | nil =>
    cases pat with
    | nil => rfl
    | cons p ps => simp [List.isPrefixOf] at h
  | cons c s => simp [occursIn, h]

theorem removeOccsF_not_occurs (pat : List Char) :
    ∀ (fuel : Nat) (s : List Char), s.length < fuel → occursIn pat s = false →
      removeOccsF fuel pat s = s := by
  intro fuel
  induction fuel with
  | zero =>
    intro s hl _
    exact absurd hl (by omega)
  | succ fuel ih =>
    intro s hl hocc
    cases s with
    | nil => rfl
    | cons c s2 =>
      have hno : pat.isPrefixOf (c :: s2) = false := by
        cases hp : pat.isPrefixOf (c :: s2)
        · rfl
        · rw [occursIn, hp] at hocc; simp at hocc
      have hrest : occursIn pat s2 = false := by
        rw [occursIn, hno] at hocc
        simpa using hocc
      rw [removeOccsF, if_neg (by simp [hno]),
        ih s2 (by simp only [List.length_cons] at hl; omega) hrest]

theorem removeOccsF_congr (pat : List Char) :
    ∀ (n : Nat) (s : List Char), s.length ≤ n →
      ∀ f1 f2 : Nat, s.length < f1 → s.length < f2 →
        removeOccsF f1 pat s = removeOccsF f2 pat s := by
  intro n
  induction n with
  | zero =>
    intro s hs f1 f2 h1 h2
    cases s with
    | nil =>
      cases f1 with
      | zero => omega
      | succ g1 =>
        cases f2 with
        | zero => omega
        | succ g2 => rfl
    | cons c s2 => simp at hs
  | succ n ih =>
    intro s hs f1 f2 h1 h2
    cases s with
    | nil =>
      cases f1 with
      | zero => omega
      | succ g1 =>
        cases f2 with
        | zero => omega
        | succ g2 => rfl
    | cons c s2 =>
      cases f1 with
      | zero => omega
      | succ g1 =>
        cases f2 with
        | zero => omega
        | succ g2 =>
          rw [removeOccsF, removeOccsF]
          by_cases hcond : pat ≠ [] ∧ pat.isPrefixOf (c :: s2) = true
          · rw [if_pos hcond, if_pos hcond]
            have hplen : 1 ≤ pat.length := by
              cases hpat : pat with
              | nil => exact absurd hpat hcond.1
              | cons q qs => simp
            have hdlen : ((c :: s2).drop pat.length).length ≤ n := by
              simp only [List.length_drop, List.length_cons]
              simp only [List.length_cons] at hs
              omega
            refine ih _ hdlen g1 g2 ?_ ?_ <;>
              · simp only [List.length_drop, List.length_cons]
                simp only [List.length_cons] at h1 h2
                omega
          · rw [if_neg hcond, if_neg hcond]
            congr 1
            refine ih s2 ?_ g1 g2 ?_ ?_ <;>
              · simp only [List.length_cons] at hs h1 h2
                omega

theorem removeOccs_not_occurs (pat : List Char) :
    ∀ s : List Char, occursIn pat s = false → removeOccs pat s = s := by
  intro s hocc
  exact removeOccsF_not_occurs pat (s.length + 1) s (by omega) hocc

theorem removeOccs_cancel (pat rel : List Char) (hp : pat ≠ []) :
    removeOccs pat (pat ++ rel) = removeOccs pat rel := by
  cases pat with
  | nil => exact absurd rfl hp
  | cons p ps =>
    have hpre : (p :: ps).isPrefixOf ((p :: ps) ++ rel) = true :=
      List.isPrefixOf_iff_prefix.mpr (List.prefix_append _ _)
    show removeOccsF (((p :: ps) ++ rel).length + 1) (p :: ps) ((p :: ps) ++ rel) = _
    rw [show (p :: ps) ++ rel = p :: (ps ++ rel) from rfl, removeOccsF,
      if_pos ⟨hp, by rw [← List.cons_append]; exact hpre⟩]
    rw [show p :: (ps ++ rel) = (p :: ps) ++ rel from rfl, List.drop_left]
    rw [removeOccs]
    refine removeOccsF_congr (p :: ps) rel.length rel (le_refl _) _ _ ?_ ?_
    · simp only [List.length_append, List.length_cons]
      omega
    · omega

theorem countSep_append (a b : List Char) :
    countSep (a ++ b) = countSep a + countSep b := List.count_append _ _ _

theorem countSep_noSlash (a : List Char) (h : ∀ c ∈ a, c ≠ '/') :
    countSep a = 0 := by
  simp only [countSep]
  exact List.count_eq_zero.mpr (fun hc => h '/' hc rfl)

theorem baseNameAux_append (acc xs ys : List Char) :
    baseNameAux acc (xs ++ '/' :: ys) = baseNameAux [] ys := by
  induction xs generalizing acc with
  | nil => simp [baseNameAux]
  | cons c xs ih =>
    by_cases hc : c = '/'
    · simp [baseNameAux, hc, ih]
    · simp [baseNameAux, hc, ih]

theorem baseNameAux_noSlash (ys : List Char) :
    ∀ acc, (∀ c ∈ ys, c ≠ '/') → baseNameAux acc ys = acc.reverse ++ ys := by
  induction ys with
  | nil => intro acc _; simp [baseNameAux]
  | cons c ys ih =>
    intro acc h
    have hc : c ≠ '/' := h c (by simp)
    rw [baseNameAux, if_neg hc, ih _ (fun x hx => h x (by simp [hx]))]
    simp

theorem baseName_joinPath (rp d : String) (h : ∀ c ∈ d.data, c ≠ '/') :
    baseName (joinPath rp d) = d := by
  apply String.ext
  show baseNameAux [] (joinPath rp d).data = d.data
  rw [joinPath_data, baseNameAux_append, baseNameAux_noSlash _ _ h]
  rfl

theorem slash_split (a : List Char) :
    ∀ b x y : List Char, (∀ c ∈ a, c ≠ '/') → (∀ c ∈ b, c ≠ '/') →
      a ++ '/' :: x = b ++ '/' :: y → a = b ∧ x = y := by
  induction a with
  | nil =>
    intro b x y _ hb h
    cases b with
    | nil => simpa using h
    | cons c b =>
      simp only [List.nil_append, List.cons_append, List.cons.injEq] at h
      exact absurd h.1.symm (hb c (by simp))
  | cons c a ih =>
    intro b x y ha hb h
    cases b with
    | nil =>
      simp only [List.cons_append, List.nil_append, List.cons.injEq] at h
      exact absurd h.1 (ha c (by simp))
    | cons c2 b =>
      simp only [List.cons_append, List.cons.injEq] at h
      obtain ⟨h1, h2⟩ :=
        ih b x y (fun z hz => ha z (by simp [hz])) (fun z hz => hb z (by simp [hz])) h.2
      exact ⟨by rw [h.1, h1], h2⟩

theorem nameOk_ne_slash (s : String) (h : nameOk s = true) :
    ∀ c ∈ s.data, c ≠ '/' := by
  intro c hc
  simp only [nameOk, Bool.and_eq_true, List.all_eq_true] at h
  exact fun hcs => by simpa [hcs] using (h.2 c hc).1

theorem nameOk_ne_nl (s : String) (h : nameOk s = true) :
    ∀ c ∈ s.data, c ≠ '\n' := by
  intro c hc
  simp only [nameOk, Bool.and_eq_true, List.all_eq_true] at h
  exact fun hcs => by simpa [hcs] using (h.2 c hc).2

theorem join_cons_str (s : String) (l : List String) :
    String.join (s :: l) = s ++ String.join l := by
  apply String.ext
  simp [join_data, String.data_append]

theorem append_empty_str (s : String) : s ++ "" = s := by
  apply String.ext
  rw [String.data_append]
  simp [String.data]

/-! ## Behaviour of the second walk -/

theorem append_file_content_snd (sp fp : String) (fd : FileData) :
    (append_file_content sp fp fd).2 = fileAggFails fd := by
  unfold append_file_content fileAggFails
  cases fd.read2 with
  | none => rfl
  | some bs => cases h : decodeUtf8 bs <;> simp [h]

theorem processFile_aborted (sp identifier : String) (skip_items : List String)
    (rootPath : String) (fd : FileData) (acc : Acc) :
    (processFile sp identifier skip_items rootPath fd acc).aborted =
      (acc.aborted ||
        (fileKept identifier skip_items fd.name && is_text_file fd &&
          fileAggFails fd)) := by
  unfold processFile
  cases h1 : acc.aborted with
  | true => simp [h1]
  | false =>
    cases h2 : should_skip_item fd.name identifier || skip_items.contains fd.name with
    | true =>
      have hk : fileKept identifier skip_items fd.name = false := by
        rw [fileKept, h2]; rfl
      simp [h1, h2, hk]
    | false =>
      have hparts := Bool.or_eq_false_iff.mp h2
      have hmem : fd.name ∉ skip_items := fun hm => by
        have hc : List.elem fd.name skip_items = false := hparts.2
        rw [List.elem_iff.mpr hm] at hc
        simp at hc
      cases h3 : is_text_file fd with
      | true =>
        simp [h1, h2, h3, fileKept, append_file_content_snd, hparts.1, hmem]
      | false => simp [h1, h2, h3]

theorem walkFiles_aborted (sp identifier : String) (skip_items : List String)
    (rootPath : String) (fds : List FileData) :
    ∀ acc : Acc, (walkFiles sp identifier skip_items rootPath fds acc).aborted =
      (acc.aborted || aggFailFiles identifier skip_items fds) := by
  induction fds with
  | nil => intro acc; simp [walkFiles, aggFailFiles]
  | cons fd fds ih =>
    intro acc
    rw [walkFiles, ih, processFile_aborted]
    simp [aggFailFiles, Bool.or_assoc]

theorem walkSub_aborted (sp identifier : String) (skip_items : List String) :
    ∀ (rootPath : String) (es : List Entry) (acc : Acc),
      (walkSub sp identifier skip_items rootPath es acc).aborted =
        (acc.aborted || aggFailSub identifier skip_items es) := by
  intro rootPath es acc
  induction rootPath, es, acc using walkSub.induct sp identifier skip_items with
  | case1 rootPath acc => simp [walkSub, aggFailSub]
  | case2 rootPath fd es acc h =>
    rw [walkSub, if_pos h, h]
    simp
  | case3 rootPath fd es acc h ih =>
    rw [Bool.not_eq_true] at h
    rw [walkSub, if_neg (by simp [h]), ih, aggFailSub]
  | case4 rootPath d cs es acc h =>
    rw [walkSub, if_pos h, h]
    simp
  | case5 rootPath d cs es acc h hkept ih1 ih2 =>
    rw [Bool.not_eq_true] at h
    rw [walkSub, if_neg (by simp [h]), if_pos hkept, ih2, ih1,
      walkFiles_aborted, aggFailSub]
    simp [h, hkept, Bool.or_assoc]
  | case6 rootPath d cs es acc h hkept ih =>
    rw [Bool.not_eq_true] at h
    rw [Bool.not_eq_true] at hkept
    rw [walkSub, if_neg (by simp [h]), if_neg (by simp [hkept]), ih, aggFailSub]
    simp [hkept]

theorem mainWalk_aborted (sp identifier : String) (skip_items : List String)
    (children : List Entry) :
    (mainWalk sp identifier skip_items children).aborted =
      specAggFail identifier skip_items children := by
  rw [mainWalk, walkSub_aborted, walkFiles_aborted, specAggFail]
  simp [Acc.init]

theorem processFile_spec (sp identifier : String) (skip_items : List String)
    (rootPath : String) (fd : FileData) (acc : Acc)
    (h1 : acc.aborted = false)
    (h2 : (fileKept identifier skip_items fd.name && is_text_file fd &&
      fileAggFails fd) = false) :
    processFile sp identifier skip_items rootPath fd acc =
      (if fileKept identifier skip_items fd.name && is_text_file fd then
        { out := acc.out ++
            renderBlock (relpathFrom sp (joinPath rootPath fd.name), contentOf fd),
          lens := acc.lens ++ [(fd.size, joinPath rootPath fd.name)],
          aborted := false }
      else acc) := by
  unfold processFile
  cases hs : should_skip_item fd.name identifier || skip_items.contains fd.name with
  | true =>
    have hk : fileKept identifier skip_items fd.name = false := by
      rw [fileKept, hs]; rfl
    simp [h1, hs, hk]
  | false =>
    have hk : fileKept identifier skip_items fd.name = true := by
      rw [fileKept, hs]; rfl
    cases ht : is_text_file fd with
    | false => simp [h1, hs, ht]
    | true =>
      have hfail : fileAggFails fd = false := by
        rw [hk, ht] at h2
        simpa using h2
      obtain ⟨bs, hbs⟩ : ∃ bs, fd.read2 = some bs := by
        cases hr : fd.read2 with
        | none =>
          simp only [fileAggFails, hr] at hfail
          exact absurd hfail (by simp)
        | some bs => exact ⟨bs, rfl⟩
      obtain ⟨cs, hcs⟩ : ∃ cs, decodeUtf8 bs = some cs := by
        simp only [fileAggFails, hbs] at hfail
        cases hd : decodeUtf8 bs with
        | none => rw [hd] at hfail; simp at hfail
        | some cs => exact ⟨cs, rfl⟩
      have hafc : append_file_content sp (joinPath rootPath fd.name) fd =
          (renderBlock (relpathFrom sp (joinPath rootPath fd.name), contentOf fd),
            false) := by
        simp [append_file_content, hbs, hcs, renderBlock, contentOf,
          String.append_assoc]
      simp [h1, hs, ht, hk, hafc]

theorem walkFiles_spec (sp identifier : String) (skip_items : List String)
    (rootPath : String) (fds : List FileData) :
    ∀ acc : Acc, acc.aborted = false →
      aggFailFiles identifier skip_items fds = false →
      walkFiles sp identifier skip_items rootPath fds acc =
        { out := acc.out ++ String.join
            ((specBlocksFiles identifier skip_items sp rootPath fds).map renderBlock),
          lens := acc.lens ++ specLensFiles identifier skip_items rootPath fds,
          aborted := false } := by
  induction fds with
  | nil =>
    intro acc h1 _
    rw [walkFiles]
    have hj : String.join
        ((specBlocksFiles identifier skip_items sp rootPath []).map renderBlock) = "" :=
      rfl
    cases acc
    simp_all [specBlocksFiles, specLensFiles, append_empty_str, hj]
  | cons fd fds ih =>
    intro acc h1 h2
    have h2head : (fileKept identifier skip_items fd.name && is_text_file fd &&
        fileAggFails fd) = false := by
      rw [aggFailFiles, List.any_cons] at h2
      simp only [Bool.or_eq_false_iff] at h2
      exact h2.1
    have h2tail : aggFailFiles identifier skip_items fds = false := by
      rw [aggFailFiles, List.any_cons] at h2
      simp only [Bool.or_eq_false_iff] at h2
      exact h2.2
    rw [walkFiles, processFile_spec sp identifier skip_items rootPath fd acc h1 h2head]
    cases hk : fileKept identifier skip_items fd.name && is_text_file fd with
    | true =>
      have hk12 := hk
      rw [Bool.and_eq_true] at hk12
      obtain ⟨hk1, hk2⟩ := hk12
      have hb : specBlocksFiles identifier skip_items sp rootPath (fd :: fds) =
          (relpathFrom sp (joinPath rootPath fd.name), contentOf fd) ::
            specBlocksFiles identifier skip_items sp rootPath fds := by
        simp [specBlocksFiles, hk1, hk2]
      have hl : specLensFiles identifier skip_items rootPath (fd :: fds) =
          (fd.size, joinPath rootPath fd.name) ::
            specLensFiles identifier skip_items rootPath fds := by
        simp [specLensFiles, hk1, hk2]
      rw [if_pos rfl, ih _ rfl h2tail, hb, hl]
      show Acc.mk _ _ _ = Acc.mk _ _ _
      rw [Acc.mk.injEq]
      refine ⟨?_, by simp, rfl⟩
      rw [List.map_cons, join_cons_str, ← String.append_assoc]
    | false =>
      have hknot : ¬(fileKept identifier skip_items fd.name = true ∧
          is_text_file fd = true) := by
        rw [← Bool.and_eq_true, hk]
        simp
      have hb : specBlocksFiles identifier skip_items sp rootPath (fd :: fds) =
          specBlocksFiles identifier skip_items sp rootPath fds := by
        simp only [specBlocksFiles, List.filterMap_cons]
        rw [if_neg (by simpa using hknot)]
      have hl : specLensFiles identifier skip_items rootPath (fd :: fds) =
          specLensFiles identifier skip_items rootPath fds := by
        simp only [specLensFiles, List.filterMap_cons]
        rw [if_neg (by simpa using hknot)]
      rw [if_neg (by simp), ih _ h1 h2tail, hb, hl]

theorem walkSub_spec (sp identifier : String) (skip_items : List String) :
    ∀ (rootPath : String) (es : List Entry) (acc : Acc),
      acc.aborted = false →
      aggFailSub identifier skip_items es = false →
      walkSub sp identifier skip_items rootPath es acc =
        { out := acc.out ++ String.join
            ((specBlocksSub identifier skip_items sp rootPath es).map renderBlock),
          lens := acc.lens ++ specLensSub identifier skip_items rootPath es,
          aborted := false } := by
  intro rootPath es acc
  induction rootPath, es, acc using walkSub.induct sp identifier skip_items with
  | case1 rootPath acc =>
    intro h1 _
    rw [walkSub]
    have hj : String.join
        ((specBlocksSub identifier skip_items sp rootPath []).map renderBlock) = "" := by
      rw [specBlocksSub]
      rfl
    cases acc
    simp_all [specBlocksSub, specLensSub, append_empty_str, hj]
  | case2 rootPath fd es acc h =>
    intro h1 _
    rw [h1] at h
    exact absurd h (by simp)
  | case3 rootPath fd es acc h ih =>
    intro h1 h2
    rw [Bool.not_eq_true] at h
    rw [walkSub, if_neg (by simp [h]), ih h1 (by rw [aggFailSub] at h2; exact h2),
      specBlocksSub, specLensSub]
  | case4 rootPath d cs es acc h =>
    intro h1 _
    rw [h1] at h
    exact absurd h (by simp)
  | case5 rootPath d cs es acc h hkept ih1 ih2 =>
    intro h1 h2
    rw [Bool.not_eq_true] at h
    rw [aggFailSub] at h2
    simp only [Bool.or_eq_false_iff, Bool.and_eq_false_iff] at h2
    have hfilesOk : aggFailFiles identifier skip_items (filesOf cs) = false := by
      rcases h2.1 with hc | hc
      · rw [hkept] at hc; simp at hc
      · exact hc.1
    have hsubOk : aggFailSub identifier skip_items cs = false := by
      rcases h2.1 with hc | hc
      · rw [hkept] at hc; simp at hc
      · exact hc.2
    have hesOk : aggFailSub identifier skip_items es = false := h2.2
    rw [walkSub, if_neg (by simp [h]), if_pos hkept]
    rw [walkFiles_spec sp identifier skip_items _ _ acc h1 hfilesOk] at ih1 ih2 ⊢
    rw [ih1 rfl hsubOk] at ih2 ⊢
    rw [ih2 rfl hesOk]
    rw [specBlocksSub, specLensSub, if_pos hkept, if_pos hkept]
    show Acc.mk _ _ _ = Acc.mk _ _ _
    rw [Acc.mk.injEq]
    refine ⟨?_, by simp [List.append_assoc], rfl⟩
    simp [List.map_append, join_append_str, String.append_assoc]
  | case6 rootPath d cs es acc h hkept ih =>
    intro h1 h2
    rw [Bool.not_eq_true] at h
    rw [Bool.not_eq_true] at hkept
    rw [aggFailSub] at h2
    simp only [hkept, Bool.false_and, Bool.false_or] at h2
    rw [walkSub, if_neg (by simp [h]), if_neg (by simp [hkept]), ih h1 h2,
      specBlocksSub, specLensSub, if_neg (by simp [hkept]), if_neg (by simp [hkept])]

theorem mainWalk_spec (sp identifier : String) (skip_items : List String)
    (children : List Entry)
    (h : specAggFail identifier skip_items children = false) :
    mainWalk sp identifier skip_items children =
      { out := String.join
          ((specBlocks identifier skip_items sp children).map renderBlock),
        lens := specLens identifier skip_items sp children,
        aborted := false } := by
  rw [specAggFail, Bool.or_eq_false_iff] at h
  rw [mainWalk, walkFiles_spec sp identifier skip_items sp _ Acc.init rfl h.1,
    walkSub_spec sp identifier skip_items sp children _ rfl h.2]
  rw [specBlocks, specLens]
  show Acc.mk _ _ _ = Acc.mk _ _ _
  rw [Acc.mk.injEq]
  refine ⟨?_, by simp [Acc.init], rfl⟩
  simp [Acc.init, List.map_append, join_append_str, String.append_assoc]

/-! ## Sorting lemmas -/

theorem mem_insertDesc (x b : Nat × String) (l : List (Nat × String)) :
    b ∈ insertDesc x l ↔ b = x ∨ b ∈ l := by
  induction l with
  | nil => simp [insertDesc]
  | cons y ys ih =>
    rw [insertDesc]
    by_cases hy : y.1 < x.1
    · rw [if_pos hy]
      simp [or_comm, or_assoc, or_left_comm]
    · rw [if_neg hy]
      simp only [List.mem_cons, ih]
      tauto

theorem insertDesc_pairwise (x : Nat × String) (l : List (Nat × String))
    (h : l.Pairwise (fun a b => b.1 ≤ a.1)) :
    (insertDesc x l).Pairwise (fun a b => b.1 ≤ a.1) := by
  induction l with
  | nil => simp [insertDesc]
  | cons y ys ih =>
    rw [List.pairwise_cons] at h
    rw [insertDesc]
    by_cases hy : y.1 < x.1
    · rw [if_pos hy]
      refine List.pairwise_cons.mpr ⟨?_, List.pairwise_cons.mpr h⟩
      intro b hb
      rcases List.mem_cons.mp hb with rfl | hb
      · exact le_of_lt hy
      · exact le_trans (h.1 b hb) (le_of_lt hy)
    · rw [if_neg hy]
      refine List.pairwise_cons.mpr ⟨?_, ih h.2⟩
      intro b hb
      rcases (mem_insertDesc x b ys).mp hb with rfl | hb
      · exact Nat.le_of_not_lt hy
      · exact h.1 b hb

theorem insertDesc_filter_eq (x : Nat × String) (l : List (Nat × String)) (k : Nat)
    (h : l.Pairwise (fun a b => b.1 ≤ a.1)) :
    (insertDesc x l).filter (fun e => e.1 == k) =
      (if x.1 == k then l.filter (fun e => e.1 == k) ++ [x]
       else l.filter (fun e => e.1 == k)) := by
  induction l with
  | nil =>
    rw [insertDesc]
    by_cases hxk : (x.1 == k) = true
    · simp [hxk]
    · simp [List.filter_cons, hxk]
  | cons y ys ih =>
    rw [List.pairwise_cons] at h
    rw [insertDesc]
    by_cases hy : y.1 < x.1
    · rw [if_pos hy]
      by_cases hxk : (x.1 == k) = true
      · have hxk2 : x.1 = k := by simpa using hxk
        have hfilter : (y :: ys).filter (fun e => e.1 == k) = [] := by
          rw [List.filter_eq_nil_iff]
          intro e he
          have hle : e.1 ≤ y.1 := by
            rcases List.mem_cons.mp he with rfl | he2
            · exact le_refl _
            · exact h.1 e he2
          have hlt : e.1 < k := hxk2 ▸ lt_of_le_of_lt hle hy
          simp only [beq_iff_eq]
          omega
        rw [if_pos hxk, hfilter, List.filter_cons, if_pos hxk, hfilter]
        rfl
      · rw [if_neg hxk, List.filter_cons, if_neg hxk]
    · rw [if_neg hy, List.filter_cons, List.filter_cons, ih h.2]
      by_cases hxk : (x.1 == k) = true
      · rw [if_pos hxk, if_pos hxk]
        by_cases hyk : (y.1 == k) = true
        · simp [hyk]
        · simp [hyk]
      · rw [if_neg hxk, if_neg hxk]

theorem sortDescAux_spec (l : List (Nat × String)) :
    ∀ acc : List (Nat × String), acc.Pairwise (fun a b => b.1 ≤ a.1) →
      (l.foldl (fun a x => insertDesc x a) acc).Pairwise (fun a b => b.1 ≤ a.1) ∧
      ∀ k, (l.foldl (fun a x => insertDesc x a) acc).filter (fun e => e.1 == k) =
        acc.filter (fun e => e.1 == k) ++ l.filter (fun e => e.1 == k) := by
  induction l with
  | nil =>
    intro acc h
    exact ⟨h, fun k => by simp⟩
  | cons x xs ih =>
    intro acc h
    have h1 := insertDesc_pairwise x acc h
    obtain ⟨p1, p2⟩ := ih (insertDesc x acc) h1
    refine ⟨p1, fun k => ?_⟩
    rw [List.foldl_cons, p2 k, insertDesc_filter_eq x acc k h, List.filter_cons]
    by_cases hxk : (x.1 == k) = true
    · rw [if_pos hxk, if_pos hxk]
      simp
    · rw [if_neg hxk, if_neg hxk]

theorem sortDesc_pairwise (l : List (Nat × String)) :
    (sortDesc l).Pairwise (fun a b => b.1 ≤ a.1) :=
  (sortDescAux_spec l [] (by simp)).1

theorem sortDesc_filter (l : List (Nat × String)) (k : Nat) :
    (sortDesc l).filter (fun e => e.1 == k) = l.filter (fun e => e.1 == k) := by
  have := (sortDescAux_spec l [] (by simp)).2 k
  simpa using this

theorem insertDesc_perm (x : Nat × String) (l : List (Nat × String)) :
    List.Perm (insertDesc x l) (x :: l) := by
  induction l with
  | nil => rfl
  | cons y ys ih =>
    rw [insertDesc]
    by_cases hy : y.1 < x.1
    · rw [if_pos hy]
    · rw [if_neg hy]
      exact (ih.cons y).trans (List.Perm.swap x y ys)

theorem sortDesc_perm (l : List (Nat × String)) : List.Perm (sortDesc l) l := by
  have haux : ∀ acc : List (Nat × String),
      List.Perm (l.foldl (fun a x => insertDesc x a) acc) (acc ++ l) := by
    induction l with
    | nil => intro acc; simp
    | cons x xs ih =>
      intro acc
      rw [List.foldl_cons]
      exact (ih (insertDesc x acc)).trans
        (((insertDesc_perm x acc).append_right xs).trans List.perm_middle.symm)
  simpa using haux []

theorem namesNodup_nodup (l : List String) (h : namesNodup l = true) : l.Nodup := by
  induction l with
  | nil => exact List.nodup_nil
  | cons s ss ih =>
    rw [namesNodup, Bool.and_eq_true] at h
    refine List.nodup_cons.mpr ⟨fun hmem => ?_, ih h.2⟩
    rw [show ss.contains s = true from List.elem_iff.mpr hmem] at h
    simp at h

end PySummary

namespace PySummary

/-! ## Tree indentation: relating the `replace`-based level to true depth -/

theorem level_of_rel (sp rel : List Char) (hsp : sp ≠ [])
    (hocc : occursIn sp rel = false) :
    countSep (removeOccs sp (sp ++ rel)) = countSep rel := by
  rw [removeOccs_cancel sp rel hsp, removeOccs_not_occurs sp rel hocc]

theorem baseName_mk_append (pre : List Char) (d : String)
    (hd : ∀ c ∈ d.data, c ≠ '/') :
    baseName ⟨pre ++ '/' :: d.data⟩ = d := by
  apply String.ext
  show baseNameAux [] (pre ++ '/' :: d.data) = d.data
  rw [baseNameAux_append, baseNameAux_noSlash _ _ hd]
  rfl

theorem treeBlock_eq_spec (sp identifier : String) (sk : List String)
    (rp : String) (children : List Entry) (lvl : Nat)
    (hlvl : countSep (removeOccs sp.data rp.data) = lvl) :
    treeBlock sp identifier sk rp children =
      specTreeBlock identifier sk lvl (baseName rp) (filesOf children) := by
  simp only [treeBlock, specTreeBlock, hlvl]

theorem countSep_rel_snoc (rel : List Char) (d : String)
    (hd : ∀ c ∈ d.data, c ≠ '/') :
    countSep (rel ++ '/' :: d.data) = countSep rel + 1 := by
  rw [countSep_append]
  have h1 : countSep ('/' :: d.data) = 1 := by
    show List.count '/' ('/' :: d.data) = 1
    rw [List.count_cons_self]
    have := countSep_noSlash d.data hd
    simp only [countSep] at this
    omega
  omega

theorem joinPath_mk (sp : String) (rel : List Char) (d : String) :
    joinPath ⟨sp.data ++ rel⟩ d = ⟨sp.data ++ (rel ++ '/' :: d.data)⟩ := by
  apply String.ext
  rw [joinPath_data]
  simp

theorem treeSub_eq_spec (sp identifier : String) (sk : List String)
    (hsp : sp.data ≠ []) :
    ∀ (rp : String) (es : List Entry) (rel : List Char),
      rp = ⟨sp.data ++ rel⟩ →
      occursIn sp.data rel = false →
      wfNames es = true →
      noReoccur sp.data rel es = true →
      treeSub sp identifier sk rp es = specTreeSub identifier sk (countSep rel) es := by
  intro rp es
  induction rp, es using treeSub.induct sp identifier sk with
  | case1 rp =>
    intro rel _ _ _ _
    rw [treeSub, specTreeSub]
  | case2 rp fd es ih =>
    intro rel hrp hocc hwf hnr
    rw [treeSub, specTreeSub]
    exact ih rel hrp hocc
      (by rw [wfNames, Bool.and_eq_true] at hwf; exact hwf.2)
      (by rw [noReoccur] at hnr; exact hnr)
  | case3 rp d cs es hkept ih1 ih2 =>
    intro rel hrp hocc hwf hnr
    rw [wfNames, Bool.and_eq_true, Bool.and_eq_true] at hwf
    obtain ⟨⟨hname, hwfcs⟩, hwfes⟩ := hwf
    rw [noReoccur, Bool.and_eq_true, Bool.and_eq_true] at hnr
    obtain ⟨⟨hocc2, hnrcs⟩, hnres⟩ := hnr
    rw [Bool.not_eq_true'] at hocc2
    have hdns : ∀ c ∈ d.data, c ≠ '/' := nameOk_ne_slash d hname
    have hjoin : joinPath rp d = ⟨sp.data ++ (rel ++ '/' :: d.data)⟩ := by
      rw [hrp]
      exact joinPath_mk sp rel d
    rw [treeSub, if_pos hkept, specTreeSub, if_pos hkept]
    have hblock : treeBlock sp identifier sk (joinPath rp d) cs =
        specTreeBlock identifier sk (countSep rel + 1) d (filesOf cs) := by
      have hlvl : countSep (removeOccs sp.data (joinPath rp d).data) =
          countSep rel + 1 := by
        rw [hjoin]
        show countSep (removeOccs sp.data (sp.data ++ (rel ++ '/' :: d.data))) = _
        rw [level_of_rel sp.data _ hsp hocc2, countSep_rel_snoc rel d hdns]
      have hbase : baseName (joinPath rp d) = d := by
        rw [hjoin,
          show sp.data ++ (rel ++ '/' :: d.data) = (sp.data ++ rel) ++ '/' :: d.data
            from (List.append_assoc _ _ _).symm]
        exact baseName_mk_append (sp.data ++ rel) d hdns
      rw [treeBlock_eq_spec sp identifier sk _ cs _ hlvl, hbase]
    rw [hblock, ih1 (rel ++ '/' :: d.data) hjoin hocc2 hwfcs hnrcs,
      ih2 rel hrp hocc hwfes hnres, countSep_rel_snoc rel d hdns]
  | case4 rp d cs es hkept ih =>
    intro rel hrp hocc hwf hnr
    rw [wfNames, Bool.and_eq_true, Bool.and_eq_true] at hwf
    rw [noReoccur, Bool.and_eq_true, Bool.and_eq_true] at hnr
    rw [treeSub, if_neg hkept, specTreeSub, if_neg hkept]
    exact ih rel hrp hocc hwf.2 hnr.2

theorem treeLines_eq_spec (sp identifier : String) (sk : List String)
    (children : List Entry) (hsp : sp.data ≠ [])
    (hwf : wfNames children = true)
    (hnr : noReoccur sp.data [] children = true) :
    treeLines sp identifier sk children = specTreeLines sp identifier sk children := by
  rw [treeLines, specTreeLines]
  have hsp_eq : sp = ⟨sp.data ++ ([] : List Char)⟩ := by
    apply String.ext
    simp
  have hblock : treeBlock sp identifier sk sp children =
      specTreeBlock identifier sk 0 (baseName sp) (filesOf children) := by
    refine treeBlock_eq_spec sp identifier sk sp children 0 ?_
    have : removeOccs sp.data sp.data = [] := by
      have h1 : removeOccs sp.data (sp.data ++ []) = removeOccs sp.data [] :=
        removeOccs_cancel sp.data [] hsp
      rw [List.append_nil] at h1
      rw [h1]
      rfl
    rw [this]
    rfl
  have hocc0 : occursIn sp.data [] = false := by
    rw [occursIn]
    cases h : sp.data with
    | nil => exact absurd h hsp
    | cons c l => rfl
  rw [hblock,
    treeSub_eq_spec sp identifier sk hsp sp children [] hsp_eq hocc0 hwf hnr]
  rfl

end PySummary

namespace PySummary

/-! ## Paths collected by the walk: shape, newline-freedom, distinctness -/

theorem mem_specLensFiles (identifier : String) (sk : List String)
    (rp : String) (fds : List FileData) (p : Nat × String) :
    p ∈ specLensFiles identifier sk rp fds ↔
      ∃ fd ∈ fds, (fileKept identifier sk fd.name && is_text_file fd) = true ∧
        p = (fd.size, joinPath rp fd.name) := by
  rw [specLensFiles, List.mem_filterMap]
  constructor
  · rintro ⟨fd, hfd, hsome⟩
    by_cases hc : (fileKept identifier sk fd.name && is_text_file fd) = true
    · rw [if_pos hc] at hsome
      exact ⟨fd, hfd, hc, (Option.some.injEq _ _ ▸ hsome).symm⟩
    · rw [if_neg hc] at hsome
      exact absurd hsome (by simp)
  · rintro ⟨fd, hfd, hc, rfl⟩
    exact ⟨fd, hfd, by rw [if_pos hc]⟩

theorem specLensSub_shape (identifier : String) (sk : List String) :
    ∀ (rp : String) (es : List Entry) (p : Nat × String),
      p ∈ specLensSub identifier sk rp es →
      ∃ (d : String) (cs : List Entry) (t : List Char),
        Entry.dir d cs ∈ es ∧ dirKept sk d = true ∧
        p.2.data = rp.data ++ '/' :: (d.data ++ '/' :: t) := by
  intro rp es
  induction rp, es using specLensSub.induct identifier sk with
  | case1 rp =>
    intro p hp
    rw [specLensSub] at hp
    exact absurd hp (by simp)
  | case2 rp fd es ih =>
    intro p hp
    rw [specLensSub] at hp
    obtain ⟨d, cs, t, hmem, hkept, hshape⟩ := ih p hp
    exact ⟨d, cs, t, by simp [hmem], hkept, hshape⟩
  | case3 rp d cs es hkept ih1 ih2 =>
    intro p hp
    rw [specLensSub, if_pos hkept] at hp
    rcases List.mem_append.mp hp with hp1 | hp2
    · rcases List.mem_append.mp hp1 with hpA | hpB
      · obtain ⟨fd, _, _, rfl⟩ := (mem_specLensFiles identifier sk _ _ p).mp hpA
        refine ⟨d, cs, fd.name.data, by simp, hkept, ?_⟩
        show (joinPath (joinPath rp d) fd.name).data = _
        rw [joinPath_data, joinPath_data]
        simp
      · obtain ⟨d2, cs2, t2, _, _, hshape2⟩ := ih1 p hpB
        refine ⟨d, cs, d2.data ++ '/' :: t2, by simp, hkept, ?_⟩
        rw [hshape2, joinPath_data]
        simp
    · obtain ⟨d2, cs2, t2, hmem2, hkept2, hshape2⟩ := ih2 p hp2
      exact ⟨d2, cs2, t2, by simp [hmem2], hkept2, hshape2⟩
  | case4 rp d cs es hkept ih =>
    intro p hp
    rw [specLensSub, if_neg hkept] at hp
    obtain ⟨d2, cs2, t2, hmem2, hkept2, hshape2⟩ := ih p hp
    exact ⟨d2, cs2, t2, by simp [hmem2], hkept2, hshape2⟩

theorem specLevel_shape (identifier : String) (sk : List String)
    (rp : String) (children : List Entry) (p : Nat × String)
    (hp : p ∈ specLensFiles identifier sk rp (filesOf children) ++
      specLensSub identifier sk rp children) :
    ∃ t : List Char, p.2.data = rp.data ++ '/' :: t := by
  rcases List.mem_append.mp hp with hp1 | hp2
  · obtain ⟨fd, _, _, rfl⟩ := (mem_specLensFiles identifier sk _ _ p).mp hp1
    exact ⟨fd.name.data, by rw [joinPath_data]⟩
  · obtain ⟨d, cs, t, _, _, hshape⟩ := specLensSub_shape identifier sk rp children p hp2
    exact ⟨d.data ++ '/' :: t, hshape⟩

theorem wfNames_mem_nameOk (es : List Entry) (hwf : wfNames es = true) :
    ∀ e ∈ es, nameOk (entryName e) = true := by
  induction es with
  | nil => intro e he; exact absurd he (by simp)
  | cons e2 es ih =>
    intro e he
    cases e2 with
    | file fd =>
      rw [wfNames, Bool.and_eq_true] at hwf
      rcases List.mem_cons.mp he with rfl | he2
      · exact hwf.1
      · exact ih hwf.2 e he2
    | dir d cs =>
      rw [wfNames, Bool.and_eq_true, Bool.and_eq_true] at hwf
      rcases List.mem_cons.mp he with rfl | he2
      · exact hwf.1.1
      · exact ih hwf.2 e he2

theorem mem_filesOf (cs : List Entry) (fd : FileData) (h : fd ∈ filesOf cs) :
    Entry.file fd ∈ cs := by
  induction cs with
  | nil => exact absurd h (by simp [filesOf])
  | cons e cs2 ih =>
    cases e with
    | file fd2 =>
      rw [filesOf] at h
      rcases List.mem_cons.mp h with rfl | h2
      · simp
      · simp [ih h2]
    | dir d2 cs3 =>
      rw [filesOf] at h
      simp [ih h]

theorem filesOf_nameOk (cs : List Entry) (fd : FileData)
    (hwf : wfNames cs = true) (h : fd ∈ filesOf cs) : nameOk fd.name = true := by
  simpa using wfNames_mem_nameOk cs hwf (Entry.file fd) (mem_filesOf cs fd h)

theorem specLensSub_noNL (identifier : String) (sk : List String) :
    ∀ (rp : String) (es : List Entry),
      (∀ c ∈ rp.data, c ≠ '\n') → wfNames es = true →
      ∀ p ∈ specLensSub identifier sk rp es, ∀ c ∈ p.2.data, c ≠ '\n' := by
  intro rp es
  induction rp, es using specLensSub.induct identifier sk with
  | case1 rp =>
    intro _ _ p hp
    rw [specLensSub] at hp
    exact absurd hp (by simp)
  | case2 rp fd es ih =>
    intro hrp hwf p hp
    rw [specLensSub] at hp
    rw [wfNames, Bool.and_eq_true] at hwf
    exact ih hrp hwf.2 p hp
  | case3 rp d cs es hkept ih1 ih2 =>
    intro hrp hwf p hp
    rw [wfNames, Bool.and_eq_true, Bool.and_eq_true] at hwf
    obtain ⟨⟨hname, hwfcs⟩, hwfes⟩ := hwf
    have hrp2 : ∀ c ∈ (joinPath rp d).data, c ≠ '\n' := by
      intro c hc
      rw [joinPath_data] at hc
      rcases List.mem_append.mp hc with hc1 | hc2
      · exact hrp c hc1
      · rcases List.mem_cons.mp hc2 with rfl | hc3
        · decide
        · exact nameOk_ne_nl d hname c hc3
    rw [specLensSub, if_pos hkept] at hp
    rcases List.mem_append.mp hp with hp1 | hp2
    · rcases List.mem_append.mp hp1 with hpA | hpB
      · obtain ⟨fd, hfd, _, rfl⟩ := (mem_specLensFiles identifier sk _ _ p).mp hpA
        intro c hc
        rw [show ((fd.size, joinPath (joinPath rp d) fd.name) : Nat × String).2 =
          joinPath (joinPath rp d) fd.name from rfl, joinPath_data] at hc
        rcases List.mem_append.mp hc with hc1 | hc2
        · exact hrp2 c hc1
        · rcases List.mem_cons.mp hc2 with rfl | hc3
          · decide
          · exact nameOk_ne_nl fd.name (filesOf_nameOk cs fd hwfcs hfd) c hc3
      · exact ih1 hrp2 hwfcs p hpB
    · exact ih2 hrp hwfes p hp2
  | case4 rp d cs es hkept ih =>
    intro hrp hwf p hp
    rw [wfNames, Bool.and_eq_true, Bool.and_eq_true] at hwf
    rw [specLensSub, if_neg hkept] at hp
    exact ih hrp hwf.2 p hp

end PySummary

namespace PySummary

theorem path_cancel (rp : String) (a b : List Char)
    (h : rp.data ++ '/' :: a = rp.data ++ '/' :: b) : a = b := by
  have h2 := List.append_cancel_left h
  simpa using h2

theorem file_path_ne_sub_path (rp : String) (f : String)
    (hf : ∀ c ∈ f.data, c ≠ '/') (d : String) (t : List Char) :
    rp.data ++ '/' :: f.data ≠ rp.data ++ '/' :: (d.data ++ '/' :: t) := by
  intro h
  have h2 : f.data = d.data ++ '/' :: t := path_cancel rp _ _ h
  have h3 : '/' ∈ f.data := by rw [h2]; simp
  exact hf '/' h3 rfl

theorem sub_path_ne_sub_path (rp : String) (d1 d2 : String) (t1 t2 : List Char)
    (h1 : ∀ c ∈ d1.data, c ≠ '/') (h2 : ∀ c ∈ d2.data, c ≠ '/')
    (hne : d1 ≠ d2) :
    rp.data ++ '/' :: (d1.data ++ '/' :: t1) ≠
      rp.data ++ '/' :: (d2.data ++ '/' :: t2) := by
  intro h
  have h3 := path_cancel rp _ _ h
  obtain ⟨heq, -⟩ := slash_split d1.data d2.data t1 t2 h1 h2 h3
  exact hne (String.ext heq)

theorem filesOf_names_sublist (cs : List Entry) :
    List.Sublist ((filesOf cs).map (fun fd => fd.name)) (cs.map entryName) := by
  induction cs with
  | nil => simp [filesOf]
  | cons e cs2 ih =>
    cases e with
    | file fd =>
      rw [filesOf, List.map_cons, List.map_cons]
      exact ih.cons₂ fd.name
    | dir d cs3 =>
      rw [filesOf, List.map_cons]
      exact ih.cons d

theorem specLensFiles_paths_nodup (identifier : String) (sk : List String)
    (rp : String) (fds : List FileData)
    (h : ((fds.map (fun fd => fd.name)).Nodup)) :
    ((specLensFiles identifier sk rp fds).map (fun e => e.2.data)).Nodup := by
  induction fds with
  | nil => simp [specLensFiles]
  | cons fd fds ih =>
    rw [List.map_cons, List.nodup_cons] at h
    rw [specLensFiles, List.filterMap_cons]
    by_cases hc : (fileKept identifier sk fd.name && is_text_file fd) = true
    · rw [if_pos hc, List.map_cons, List.nodup_cons]
      refine ⟨fun hmem => ?_, by rw [← specLensFiles] at *; exact ih h.2⟩
      rw [← specLensFiles] at hmem
      obtain ⟨q, hq, hqdata⟩ := List.mem_map.mp hmem
      obtain ⟨fd2, hfd2, -, rfl⟩ := (mem_specLensFiles identifier sk rp fds q).mp hq
      have : (joinPath rp fd2.name).data = (joinPath rp fd.name).data := hqdata
      rw [joinPath_data, joinPath_data] at this
      have hname : fd2.name = fd.name := String.ext (path_cancel rp _ _ this)
      exact h.1 (hname ▸ List.mem_map_of_mem (fun fd => fd.name) hfd2)
    · rw [if_neg hc, ← specLensFiles]
      exact ih h.2

theorem specLensSub_paths_nodup (identifier : String) (sk : List String) :
    ∀ (rp : String) (es : List Entry),
      wfNames es = true → namesNodup (es.map entryName) = true → wfSub es = true →
      ((specLensSub identifier sk rp es).map (fun e => e.2.data)).Nodup := by
  intro rp es
  induction rp, es using specLensSub.induct identifier sk with
  | case1 rp =>
    intro _ _ _
    rw [specLensSub]
    simp
  | case2 rp fd es ih =>
    intro hwf hnn hws
    rw [wfNames, Bool.and_eq_true] at hwf
    rw [List.map_cons, namesNodup, Bool.and_eq_true] at hnn
    rw [wfSub] at hws
    rw [specLensSub]
    exact ih hwf.2 hnn.2 hws
  | case3 rp d cs es hkept ih1 ih2 =>
    intro hwf hnn hws
    rw [wfNames, Bool.and_eq_true, Bool.and_eq_true] at hwf
    obtain ⟨⟨hname, hwfcs⟩, hwfes⟩ := hwf
    rw [List.map_cons, namesNodup, Bool.and_eq_true] at hnn
    obtain ⟨hdne, hnnes⟩ := hnn
    rw [wfSub, Bool.and_eq_true, Bool.and_eq_true] at hws
    obtain ⟨⟨hnncs, hwscs⟩, hwses⟩ := hws
    simp only [entryName] at hdne
    have hdnotin : d ∉ es.map entryName := by
      intro hmem
      rw [show (es.map entryName).contains d = true from List.elem_iff.mpr hmem] at hdne
      simp at hdne
    rw [specLensSub, if_pos hkept, List.map_append, List.map_append]
    have hAnodup : ((specLensFiles identifier sk (joinPath rp d)
        (filesOf cs)).map (fun e => e.2.data)).Nodup :=
      specLensFiles_paths_nodup identifier sk _ _
        ((namesNodup_nodup _ hnncs).sublist (filesOf_names_sublist cs))
    have hBnodup := ih1 hwfcs hnncs hwscs
    have hCnodup := ih2 hwfes hnnes hwses
    have hABdisj : List.Disjoint
        ((specLensFiles identifier sk (joinPath rp d)
          (filesOf cs)).map (fun e => e.2.data))
        ((specLensSub identifier sk (joinPath rp d) cs).map (fun e => e.2.data)) := by
      intro a ha hb
      obtain ⟨p, hp, rfl⟩ := List.mem_map.mp ha
      obtain ⟨q, hq, hqd⟩ := List.mem_map.mp hb
      obtain ⟨fd, hfd, -, rfl⟩ := (mem_specLensFiles identifier sk _ _ p).mp hp
      obtain ⟨d2, cs2, t2, -, -, hshape⟩ :=
        specLensSub_shape identifier sk _ cs q hq
      have hfn : ∀ c ∈ fd.name.data, c ≠ '/' :=
        nameOk_ne_slash fd.name (filesOf_nameOk cs fd hwfcs hfd)
      have hp2 : ((fd.size, joinPath (joinPath rp d) fd.name) : Nat × String).2.data =
          (joinPath rp d).data ++ '/' :: fd.name.data := joinPath_data _ _
      exact file_path_ne_sub_path (joinPath rp d) fd.name hfn d2 t2
        (hp2.symm.trans (hqd.symm.trans hshape))
    have hABnodup := hAnodup.append hBnodup hABdisj
    refine hABnodup.append hCnodup ?_
    intro a ha hb
    obtain ⟨rest, hrest⟩ : ∃ rest, a = rp.data ++ '/' :: (d.data ++ '/' :: rest) := by
      rcases List.mem_append.mp ha with haA | haB
      · obtain ⟨p, hp, rfl⟩ := List.mem_map.mp haA
        obtain ⟨fd, hfd, -, rfl⟩ := (mem_specLensFiles identifier sk _ _ p).mp hp
        refine ⟨fd.name.data, ?_⟩
        show (joinPath (joinPath rp d) fd.name).data = _
        rw [joinPath_data, joinPath_data]
        simp
      · obtain ⟨q, hq, rfl⟩ := List.mem_map.mp haB
        obtain ⟨d2, cs2, t2, -, -, hshape⟩ :=
          specLensSub_shape identifier sk _ cs q hq
        refine ⟨d2.data ++ '/' :: t2, ?_⟩
        rw [hshape, joinPath_data]
        simp
    obtain ⟨q, hq, hqd⟩ := List.mem_map.mp hb
    obtain ⟨d2, cs2, t2, hmem2, -, hshape2⟩ :=
      specLensSub_shape identifier sk rp es q hq
    have hd2name : d2 ∈ es.map entryName := by
      have := List.mem_map_of_mem entryName hmem2
      simpa [entryName] using this
    have hd2ok : nameOk d2 = true := by
      have := wfNames_mem_nameOk es hwfes (Entry.dir d2 cs2) hmem2
      simpa [entryName] using this
    refine sub_path_ne_sub_path rp d d2 rest t2
      (nameOk_ne_slash d hname) (nameOk_ne_slash d2 hd2ok)
      (fun he => hdnotin (he ▸ hd2name)) ?_
    rw [← hrest, ← hshape2, hqd]
  | case4 rp d cs es hkept ih =>
    intro hwf hnn hws
    rw [wfNames, Bool.and_eq_true, Bool.and_eq_true] at hwf
    rw [List.map_cons, namesNodup, Bool.and_eq_true] at hnn
    rw [wfSub, Bool.and_eq_true, Bool.and_eq_true] at hws
    rw [specLensSub, if_neg hkept]
    exact ih hwf.2 hnn.2 hws.2

end PySummary

namespace PySummary

theorem specLens_paths_nodup (identifier : String) (sk : List String)
    (sp : String) (cs : List Entry)
    (hwf : wfNames cs = true) (ht : wfTree cs = true) :
    ((specLens identifier sk sp cs).map (fun e => e.2.data)).Nodup := by
  rw [wfTree, Bool.and_eq_true] at ht
  rw [specLens, List.map_append]
  have hAnodup : ((specLensFiles identifier sk sp (filesOf cs)).map
      (fun e => e.2.data)).Nodup :=
    specLensFiles_paths_nodup identifier sk _ _
      ((namesNodup_nodup _ ht.1).sublist (filesOf_names_sublist cs))
  have hBnodup := specLensSub_paths_nodup identifier sk sp cs hwf ht.1 ht.2
  refine hAnodup.append hBnodup ?_
  intro a ha hb
  obtain ⟨p, hp, rfl⟩ := List.mem_map.mp ha
  obtain ⟨q, hq, hqd⟩ := List.mem_map.mp hb
  obtain ⟨fd, hfd, -, rfl⟩ := (mem_specLensFiles identifier sk _ _ p).mp hp
  obtain ⟨d2, cs2, t2, -, -, hshape⟩ := specLensSub_shape identifier sk sp cs q hq
  have hfn : ∀ c ∈ fd.name.data, c ≠ '/' :=
    nameOk_ne_slash fd.name (filesOf_nameOk cs fd hwf hfd)
  have hp2 : ((fd.size, joinPath sp fd.name) : Nat × String).2.data =
      sp.data ++ '/' :: fd.name.data := joinPath_data _ _
  exact file_path_ne_sub_path sp fd.name hfn d2 t2
    (hp2.symm.trans (hqd.symm.trans hshape))

/-! ## Relative paths -/

theorem relpathFrom_strip (sp : String) (tail : List Char) :
    relpathFrom sp ⟨sp.data ++ '/' :: tail⟩ = ⟨tail⟩ := by
  rw [relpathFrom]
  have hpre : (sp ++ "/").data.isPrefixOf (sp.data ++ '/' :: tail) = true := by
    apply List.isPrefixOf_iff_prefix.mpr
    rw [String.data_append]
    show (sp.data ++ ['/']) <+: _
    rw [show sp.data ++ '/' :: tail = (sp.data ++ ['/']) ++ tail by simp]
    exact List.prefix_append _ _
  rw [if_pos hpre]
  show (⟨(sp.data ++ '/' :: tail).drop (sp.data.length + 1)⟩ : String) = _
  congr 1
  rw [show sp.data ++ '/' :: tail = (sp.data ++ ['/']) ++ tail by simp]
  rw [show sp.data.length + 1 = (sp.data ++ ['/']).length by simp]
  exact List.drop_left _ _

theorem specLens_shape (identifier : String) (sk : List String)
    (sp : String) (cs : List Entry) (p : Nat × String)
    (hp : p ∈ specLens identifier sk sp cs) :
    ∃ t : List Char, p.2.data = sp.data ++ '/' :: t :=
  specLevel_shape identifier sk sp cs p (by rw [specLens] at hp; exact hp)

theorem specLens_relpaths_nodup (identifier : String) (sk : List String)
    (sp : String) (cs : List Entry)
    (hwf : wfNames cs = true) (ht : wfTree cs = true) :
    ((specLens identifier sk sp cs).map
      (fun e => relpathFrom sp e.2)).Nodup := by
  have hfull := specLens_paths_nodup identifier sk sp cs hwf ht
  have hmapeq : (specLens identifier sk sp cs).map (fun e => relpathFrom sp e.2) =
      ((specLens identifier sk sp cs).map (fun e => e.2.data)).map
        (fun l => relpathFrom sp ⟨l⟩) := by
    rw [List.map_map]
    rfl
  rw [hmapeq]
  refine List.Nodup.map_on ?_ hfull
  intro x hx y hy hxy
  obtain ⟨p, hp, rfl⟩ := List.mem_map.mp hx
  obtain ⟨q, hq, rfl⟩ := List.mem_map.mp hy
  obtain ⟨t1, ht1⟩ := specLens_shape identifier sk sp cs p hp
  obtain ⟨t2, ht2⟩ := specLens_shape identifier sk sp cs q hq
  rw [ht1, ht2] at hxy ⊢
  rw [relpathFrom_strip, relpathFrom_strip] at hxy
  have : t1 = t2 := congrArg String.data hxy
  rw [this]

/-! ## Content blocks versus length records -/

theorem specBlocksFiles_fst (identifier : String) (sk : List String)
    (sp rp : String) (fds : List FileData) :
    (specBlocksFiles identifier sk sp rp fds).map Prod.fst =
      (specLensFiles identifier sk rp fds).map (fun e => relpathFrom sp e.2) := by
  induction fds with
  | nil => rfl
  | cons fd fds ih =>
    rw [specBlocksFiles, specLensFiles, List.filterMap_cons, List.filterMap_cons]
    by_cases hc : (fileKept identifier sk fd.name && is_text_file fd) = true
    · rw [if_pos hc, if_pos hc, List.map_cons, List.map_cons,
        ← specBlocksFiles, ← specLensFiles, ih]
    · rw [if_neg hc, if_neg hc, ← specBlocksFiles, ← specLensFiles, ih]

theorem specBlocksSub_fst (identifier : String) (sk : List String) (sp : String) :
    ∀ (rp : String) (es : List Entry),
      (specBlocksSub identifier sk sp rp es).map Prod.fst =
        (specLensSub identifier sk rp es).map (fun e => relpathFrom sp e.2) := by
  intro rp es
  induction rp, es using specLensSub.induct identifier sk with
  | case1 rp => rw [specBlocksSub, specLensSub]; rfl
  | case2 rp fd es ih => rw [specBlocksSub, specLensSub]; exact ih
  | case3 rp d cs es hkept ih1 ih2 =>
    rw [specBlocksSub, specLensSub, if_pos hkept, if_pos hkept,
      List.map_append, List.map_append, List.map_append, List.map_append,
      specBlocksFiles_fst, ih1, ih2]
  | case4 rp d cs es hkept ih =>
    rw [specBlocksSub, specLensSub, if_neg hkept, if_neg hkept]
    exact ih

theorem specBlocks_fst (identifier : String) (sk : List String)
    (sp : String) (cs : List Entry) :
    (specBlocks identifier sk sp cs).map Prod.fst =
      (specLens identifier sk sp cs).map (fun e => relpathFrom sp e.2) := by
  rw [specBlocks, specLens, List.map_append, List.map_append,
    specBlocksFiles_fst, specBlocksSub_fst]

end PySummary

namespace PySummary

/-! ## Line structure of the lengths document -/

theorem header_ne_nl (total : Nat) :
    ∀ c ∈ ("Total Length: " ++ natRepr total).data, c ≠ '\n' := by
  intro c hc
  rw [String.data_append] at hc
  rcases List.mem_append.mp hc with h1 | h1
  · have hlit : ∀ c ∈ ("Total Length: " : String).data, c ≠ '\n' := by decide
    exact hlit c h1
  · exact natRepr_ne_nl total c h1

theorem mkLengthsDoc_data (sp : String) (total : Nat) (L : List (Nat × String)) :
    (mkLengthsDoc sp total L).data =
      ("Total Length: " ++ natRepr total).data ++ '\n' :: '\n' ::
        (String.join (L.map (lengthsEntry sp))).data := by
  rw [mkLengthsDoc]
  simp [String.data_append, List.append_assoc]

theorem splitNL_join_entries (sp : String) (L : List (Nat × String))
    (h : ∀ e ∈ L, ∀ c ∈ (relpathFrom sp e.2).data, c ≠ '\n') :
    splitNL (String.join (L.map (lengthsEntry sp))).data =
      L.flatMap (fun e => [(relpathFrom sp e.2).data, (natRepr e.1).data, []]) ++
        [[]] := by
  induction L with
  | nil => rfl
  | cons e L ih =>
    rw [List.map_cons, join_cons_str]
    have hdata : (lengthsEntry sp e ++ String.join (L.map (lengthsEntry sp))).data =
        (relpathFrom sp e.2).data ++ '\n' :: ((natRepr e.1).data ++ '\n' :: '\n' ::
          (String.join (L.map (lengthsEntry sp))).data) := by
      rw [String.data_append, lengthsEntry]
      simp [String.data_append, List.append_assoc]
    rw [hdata, splitNL_append _ _ (h e (by simp)),
      splitNL_append _ _ (natRepr_ne_nl e.1), splitNL, if_pos rfl,
      ih (fun e2 he2 => h e2 (by simp [he2]))]
    simp

theorem splitNL_mkLengthsDoc (sp : String) (total : Nat) (L : List (Nat × String))
    (h : ∀ e ∈ L, ∀ c ∈ (relpathFrom sp e.2).data, c ≠ '\n') :
    splitNL (mkLengthsDoc sp total L).data =
      ("Total Length: " ++ natRepr total).data :: [] ::
        (L.flatMap (fun e => [(relpathFrom sp e.2).data, (natRepr e.1).data, []]) ++
          [[]]) := by
  rw [mkLengthsDoc_data, splitNL_append _ _ (header_ne_nl total), splitNL,
    if_pos rfl, splitNL_join_entries sp L h]

end PySummary

namespace PySummary

/-! ## Corollaries about the assembled run -/

theorem runAcc_aborted (sp : String) (cs : List Entry) :
    (runAcc sp cs).aborted =
      specAggFail "29ph50JZ7" ["Vm.json", "VmSafe.json"] cs :=
  mainWalk_aborted sp "29ph50JZ7" ["Vm.json", "VmSafe.json"] cs

theorem runAcc_spec (sp : String) (cs : List Entry)
    (h : (runAcc sp cs).aborted = false) :
    runAcc sp cs =
      { out := String.join
          ((specBlocks "29ph50JZ7" ["Vm.json", "VmSafe.json"] sp cs).map renderBlock),
        lens := specLens "29ph50JZ7" ["Vm.json", "VmSafe.json"] sp cs,
        aborted := false } := by
  have hfail : specAggFail "29ph50JZ7" ["Vm.json", "VmSafe.json"] cs = false := by
    rw [← runAcc_aborted sp cs]
    exact h
  exact mainWalk_spec sp "29ph50JZ7" ["Vm.json", "VmSafe.json"] cs hfail

theorem runAcc_lens_spec (sp : String) (cs : List Entry)
    (h : (runAcc sp cs).aborted = false) :
    (runAcc sp cs).lens = specLens "29ph50JZ7" ["Vm.json", "VmSafe.json"] sp cs := by
  rw [runAcc_spec sp cs h]

theorem runAcc_out_spec (sp : String) (cs : List Entry)
    (h : (runAcc sp cs).aborted = false) :
    (runAcc sp cs).out = String.join
      ((specBlocks "29ph50JZ7" ["Vm.json", "VmSafe.json"] sp cs).map renderBlock) := by
  rw [runAcc_spec sp cs h]

theorem runMain_summary (sp : String) (cs : List Entry) :
    (runMain sp cs).summary =
      create_directory_tree sp cs "29ph50JZ7" ["Vm.json", "VmSafe.json"] ++
        (runAcc sp cs).out := by
  simp only [runMain]
  by_cases h : (mainWalk sp "29ph50JZ7" ["Vm.json", "VmSafe.json"] cs).aborted = true
  · rw [if_pos h]
    rfl
  · rw [if_neg h]
    rfl

theorem runMain_lengthsDoc_none (sp : String) (cs : List Entry)
    (h : (runAcc sp cs).aborted = true) :
    (runMain sp cs).lengthsDoc = none := by
  simp only [runMain]
  rw [if_pos (show (mainWalk sp "29ph50JZ7" ["Vm.json", "VmSafe.json"] cs).aborted =
    true from h)]

theorem runMain_lengthsDoc_some (sp : String) (cs : List Entry)
    (h : (runAcc sp cs).aborted = false) :
    (runMain sp cs).lengthsDoc =
      some (mkLengthsDoc sp (((sortDesc (runAcc sp cs).lens).map Prod.fst).sum)
        (sortDesc (runAcc sp cs).lens)) := by
  simp only [runMain]
  rw [if_neg (by rw [show (mainWalk sp "29ph50JZ7" ["Vm.json", "VmSafe.json"]
    cs).aborted = (runAcc sp cs).aborted from rfl, h]; simp)]
  rfl

/-! ## Newline-freedom of the collected paths -/

theorem specLens_noNL (identifier : String) (sk : List String)
    (sp : String) (cs : List Entry)
    (hsp : ∀ c ∈ sp.data, c ≠ '\n') (hwf : wfNames cs = true) :
    ∀ p ∈ specLens identifier sk sp cs, ∀ c ∈ p.2.data, c ≠ '\n' := by
  intro p hp
  rw [specLens] at hp
  rcases List.mem_append.mp hp with hp1 | hp2
  · obtain ⟨fd, hfd, -, rfl⟩ := (mem_specLensFiles identifier sk _ _ p).mp hp1
    intro c hc
    rw [show ((fd.size, joinPath sp fd.name) : Nat × String).2 =
      joinPath sp fd.name from rfl, joinPath_data] at hc
    rcases List.mem_append.mp hc with hc1 | hc2
    · exact hsp c hc1
    · rcases List.mem_cons.mp hc2 with rfl | hc3
      · decide
      · exact nameOk_ne_nl fd.name (filesOf_nameOk cs fd hwf hfd) c hc3
  · exact specLensSub_noNL identifier sk sp cs hsp hwf p hp2

theorem relpathFrom_chars (sp p : String) :
    ∀ c ∈ (relpathFrom sp p).data, c ∈ p.data := by
  intro c hc
  rw [relpathFrom] at hc
  by_cases h : (sp ++ "/").data.isPrefixOf p.data = true
  · rw [if_pos h] at hc
    exact List.mem_of_mem_drop hc
  · rw [if_neg h] at hc
    exact hc

/-! ## Names printed in the tree -/

/-- The name filter that every emitted tree line respects: a directory line
is printed only for a basename neither in the skip set nor hidden (source
line 26); a file line only for a name passing all three skip rules (source
line 30). -/
def treeLineOk (identifier : String) (skip_items : List String) : TreeLine → Prop
  | .dirLine _ b => (!skip_items.contains b && !strStarts b ".") = true
  | .fileLine _ f => fileKept identifier skip_items f = true

theorem treeBlock_lines_ok (sp identifier : String) (sk : List String)
    (rp : String) (children : List Entry) :
    ∀ l ∈ treeBlock sp identifier sk rp children, treeLineOk identifier sk l := by
  intro l hl
  simp only [treeBlock] at hl
  by_cases hg : (!sk.contains (baseName rp) && !strStarts (baseName rp) ".") = true
  · rw [if_pos hg] at hl
    rcases List.mem_cons.mp hl with rfl | hl2
    · exact hg
    · obtain ⟨fd, -, hsome⟩ := List.mem_filterMap.mp hl2
      by_cases hc : fileKept identifier sk fd.name = true
      · rw [if_pos hc] at hsome
        have := Option.some.inj hsome
        rw [← this]
        exact hc
      · rw [if_neg hc] at hsome
        exact absurd hsome (by simp)
  · rw [if_neg hg] at hl
    exact absurd hl (by simp)

theorem treeSub_lines_ok (sp identifier : String) (sk : List String) :
    ∀ (rp : String) (es : List Entry),
      ∀ l ∈ treeSub sp identifier sk rp es, treeLineOk identifier sk l := by
  intro rp es
  induction rp, es using treeSub.induct sp identifier sk with
  | case1 rp =>
    intro l hl
    rw [treeSub] at hl
    exact absurd hl (by simp)
  | case2 rp fd es ih =>
    intro l hl
    rw [treeSub] at hl
    exact ih l hl
  | case3 rp d cs es hkept ih1 ih2 =>
    intro l hl
    rw [treeSub, if_pos hkept] at hl
    rcases List.mem_append.mp hl with hl1 | hl2
    · rcases List.mem_append.mp hl1 with hlA | hlB
      · exact treeBlock_lines_ok sp identifier sk _ cs l hlA
      · exact ih1 l hlB
    · exact ih2 l hl2
  | case4 rp d cs es hkept ih =>
    intro l hl
    rw [treeSub, if_neg hkept] at hl
    exact ih l hl

theorem treeLines_lines_ok (sp identifier : String) (sk : List String)
    (cs : List Entry) :
    ∀ l ∈ treeLines sp identifier sk cs, treeLineOk identifier sk l := by
  intro l hl
  rw [treeLines] at hl
  rcases List.mem_append.mp hl with hl1 | hl2
  · exact treeBlock_lines_ok sp identifier sk sp cs l hl1
  · exact treeSub_lines_ok sp identifier sk sp cs l hl2

end PySummary

namespace PySummary

/-! ## Pruned entries contribute nothing to the tree

Specification-side filesystem filter, written from the amended claim's
words: every file whose name matches one of the three skip rules is
removed, and every hidden or skip-set directory is removed together with
its whole subtree (kept directories are filtered recursively).  The tree
output is invariant under this deletion, which is exactly the claim that
skipped files and pruned directories — descendants included — contribute
nothing to it. -/

/-- The filesystem with every skipped file and every pruned directory
(together with its entire subtree) deleted. -/
def pruneFS (identifier : String) (skip_items : List String) :
    List Entry → List Entry
  | [] => []
  | .file fd :: es =>
    if fileKept identifier skip_items fd.name then
      .file fd :: pruneFS identifier skip_items es
    else
      pruneFS identifier skip_items es
  | .dir d cs :: es =>
    if dirKept skip_items d then
      .dir d (pruneFS identifier skip_items cs) :: pruneFS identifier skip_items es
    else
      pruneFS identifier skip_items es

theorem filterMap_filter_of_none {α β : Type} (g : α → Option β) (p : α → Bool)
    (l : List α) (h : ∀ a, p a = false → g a = none) :
    (l.filter p).filterMap g = l.filterMap g := by
  induction l with
  | nil => rfl
  | cons a l ih =>
    cases hp : p a with
    | true => simp [List.filter_cons, hp, List.filterMap_cons, ih]
    | false => simp [List.filter_cons, hp, List.filterMap_cons, h a hp, ih]

theorem filesOf_pruneFS (identifier : String) (sk : List String)
    (es : List Entry) :
    filesOf (pruneFS identifier sk es) =
      (filesOf es).filter (fun fd => fileKept identifier sk fd.name) := by
  induction es with
  | nil =>
    rw [pruneFS]
    rfl
  | cons e es ih =>
    cases e with
    | file fd =>
      cases hk : fileKept identifier sk fd.name with
      | true => simp [pruneFS, hk, filesOf, List.filter_cons, ih]
      | false => simp [pruneFS, hk, filesOf, List.filter_cons, ih]
    | dir d cs =>
      cases hk : dirKept sk d with
      | true => simp [pruneFS, hk, filesOf, ih]
      | false => simp [pruneFS, hk, filesOf, ih]

theorem treeBlock_pruneFS (sp identifier : String) (sk : List String)
    (rp : String) (cs : List Entry) :
    treeBlock sp identifier sk rp (pruneFS identifier sk cs) =
      treeBlock sp identifier sk rp cs := by
  simp only [treeBlock, filesOf_pruneFS]
  rw [filterMap_filter_of_none _ _ _ (fun fd hfd => by simp [hfd])]

theorem treeSub_pruneFS (sp identifier : String) (sk : List String) :
    ∀ (rp : String) (es : List Entry),
      treeSub sp identifier sk rp (pruneFS identifier sk es) =
        treeSub sp identifier sk rp es := by
  intro rp es
  induction rp, es using treeSub.induct sp identifier sk with
  | case1 rp =>
    rw [pruneFS]
  | case2 rp fd es ih =>
    cases hk : fileKept identifier sk fd.name with
    | true =>
      rw [pruneFS, if_pos hk, treeSub, treeSub]
      exact ih
    | false =>
      rw [pruneFS, if_neg (by simp [hk]), treeSub]
      exact ih
  | case3 rp d cs es hkept ih1 ih2 =>
    rw [pruneFS, if_pos hkept, treeSub, if_pos hkept, treeSub, if_pos hkept,
      treeBlock_pruneFS, ih1, ih2]
  | case4 rp d cs es hkept ih =>
    rw [pruneFS, if_neg hkept, treeSub, if_neg hkept]
    exact ih

theorem treeLines_pruneFS (sp identifier : String) (sk : List String)
    (cs : List Entry) :
    treeLines sp identifier sk cs =
      treeLines sp identifier sk (pruneFS identifier sk cs) := by
  rw [treeLines, treeLines, treeBlock_pruneFS, treeSub_pruneFS]

/-! ## The claims -/

/-- Claim C1, counterexample filesystem: a directory whose name contains the
run identifier `"29ph50JZ7"` (and is neither hidden nor in the skip set),
holding one ordinary text file. -/
def fsC1 : List Entry :=
  [.dir "d29ph50JZ7" [.file ⟨"a.txt", some [104], some [104], 1⟩]]

/-- Claim C1 is false as stated: `"d29ph50JZ7"` contains the
run-identifying token, yet the directory's own line appears in the summary
document (its name occurs in the tree text) and its descendant file
`d29ph50JZ7/a.txt` appears in the lengths document.  The directory filters
of the code (source lines 20, 26 and 69) test only for a leading `'.'` and
exact skip-set membership, never for the identifier. -/
theorem claim_C1_counterexample :
    strHas "d29ph50JZ7" "29ph50JZ7" = true ∧
    strHas (create_directory_tree "/r" fsC1 "29ph50JZ7" ["Vm.json", "VmSafe.json"])
      "d29ph50JZ7" = true ∧
    (runMain "/r" fsC1).lengthsDoc =
      some "Total Length: 1\n\nd29ph50JZ7/a.txt\n1\n\n" := by
  refine ⟨by decide, ?_, ?_⟩
  · simp only [fsC1, create_directory_tree, treeLines, treeSub]
    decide
  · simp only [fsC1, runMain, mainWalk, walkSub, walkFiles]
    decide

/-- Claim C1 (amended): the three-rule exclusion holds for files, and the
pruning of directories (with all their descendants) holds for hidden names
and exact skip-set matches — but not for names merely containing the
identifier.  Formally: (1) when the run completes, the records of the
lengths document are exactly those of `specLens`, and the content blocks
appended to the summary are exactly the rendered `specBlocks` — both of
which keep a file iff its name passes all three rules and it classifies as
text (so a skipped file contributes no content block), and descend into a
directory iff its name is neither hidden nor in the skip set (so nothing
below a pruned directory appears in either document); (2) the tree output
is unchanged when every skipped file and every pruned directory together
with its whole subtree is deleted from the filesystem (`pruneFS`), so
pruned directories and all their descendants contribute no tree line;
(3) every emitted tree line names either a directory whose basename is
non-hidden and outside the skip set, or a file passing all three rules. -/
theorem claim_C1 (sp : String) (cs : List Entry) :
    ((runAcc sp cs).aborted = false →
      (runAcc sp cs).lens = specLens "29ph50JZ7" ["Vm.json", "VmSafe.json"] sp cs ∧
      (runAcc sp cs).out = String.join
        ((specBlocks "29ph50JZ7" ["Vm.json", "VmSafe.json"] sp cs).map renderBlock)) ∧
    treeLines sp "29ph50JZ7" ["Vm.json", "VmSafe.json"] cs =
      treeLines sp "29ph50JZ7" ["Vm.json", "VmSafe.json"]
        (pruneFS "29ph50JZ7" ["Vm.json", "VmSafe.json"] cs) ∧
    ∀ l ∈ treeLines sp "29ph50JZ7" ["Vm.json", "VmSafe.json"] cs,
      treeLineOk "29ph50JZ7" ["Vm.json", "VmSafe.json"] l :=
  ⟨fun h => ⟨runAcc_lens_spec sp cs h, runAcc_out_spec sp cs h⟩,
    treeLines_pruneFS sp "29ph50JZ7" ["Vm.json", "VmSafe.json"] cs,
    treeLines_lines_ok sp "29ph50JZ7" ["Vm.json", "VmSafe.json"] cs⟩

/-- Claim C1, witness filesystem: a kept file, a hidden file and a hidden
directory. -/
def fsC1w : List Entry :=
  [.file ⟨"keep.txt", some [104], some [104], 1⟩,
   .file ⟨".hid", some [104], some [104], 1⟩,
   .dir ".git" [.file ⟨"x", some [104], some [104], 1⟩]]

/-- Claim C1's hypothesis is satisfiable: on `fsC1w` the run completes, the
collected records match `specLens` and the appended content blocks match
`specBlocks`. -/
theorem claim_C1_witness :
    (runAcc "/r" fsC1w).aborted = false ∧
    (runAcc "/r" fsC1w).lens =
      specLens "29ph50JZ7" ["Vm.json", "VmSafe.json"] "/r" fsC1w ∧
    (runAcc "/r" fsC1w).out = String.join
      ((specBlocks "29ph50JZ7" ["Vm.json", "VmSafe.json"] "/r" fsC1w).map
        renderBlock) := by
  have h : (runAcc "/r" fsC1w).aborted = false := by
    simp only [fsC1w, runAcc, mainWalk, walkSub, walkFiles]
    decide
  exact ⟨h, ((claim_C1 "/r" fsC1w).1 h).1, ((claim_C1 "/r" fsC1w).1 h).2⟩

/-- Claim C2: in the lengths document of a completed run, the number printed
in the `Total Length:` header line is the arithmetic sum of exactly the
individual length lines listed below it.  The document is decomposed into
newline-separated lines: header, blank, then path/length/blank triples over
the sorted records; the header's number is the sum of those records'
lengths.  (The trailing `[]` is the empty segment after the final
newline.) -/
theorem claim_C2 (sp : String) (cs : List Entry) (hsp : noNL sp.data = true)
    (hwf : wfNames cs = true) (hok : (runAcc sp cs).aborted = false) :
    ∃ d, (runMain sp cs).lengthsDoc = some d ∧
      splitNL d.data =
        ("Total Length: " ++
            natRepr (((sortDesc (runAcc sp cs).lens).map Prod.fst).sum)).data :: [] ::
          ((sortDesc (runAcc sp cs).lens).flatMap
            (fun e => [(relpathFrom sp e.2).data, (natRepr e.1).data, []]) ++
            [[]]) := by
  refine ⟨_, runMain_lengthsDoc_some sp cs hok, ?_⟩
  refine splitNL_mkLengthsDoc sp _ _ ?_
  intro e he c hc
  have hmem : e ∈ (runAcc sp cs).lens := (sortDesc_perm _).mem_iff.mp he
  rw [runAcc_lens_spec sp cs hok] at hmem
  exact specLens_noNL "29ph50JZ7" ["Vm.json", "VmSafe.json"] sp cs
    ((noNL_iff sp.data).mp hsp) hwf e hmem c (relpathFrom_chars sp e.2 c hc)

/-- Claim C2, witness filesystem: one plain text file. -/
def fsC2w : List Entry := [.file ⟨"a.txt", some [104], some [104], 1⟩]

/-- Claim C2's hypotheses are satisfiable on `fsC2w`. -/
theorem claim_C2_witness :
    (noNL "/r".data = true ∧ wfNames fsC2w = true ∧
      (runAcc "/r" fsC2w).aborted = false) ∧
    ∃ d, (runMain "/r" fsC2w).lengthsDoc = some d ∧
      splitNL d.data =
        ("Total Length: " ++
            natRepr (((sortDesc (runAcc "/r" fsC2w).lens).map Prod.fst).sum)).data ::
          [] ::
          ((sortDesc (runAcc "/r" fsC2w).lens).flatMap
            (fun e => [(relpathFrom "/r" e.2).data, (natRepr e.1).data, []]) ++
            [[]]) := by
  have h1 : noNL "/r".data = true := by decide
  have h2 : wfNames fsC2w = true := by
    simp only [fsC2w, wfNames]
    decide
  have h3 : (runAcc "/r" fsC2w).aborted = false := by
    simp only [fsC2w, runAcc, mainWalk, walkSub, walkFiles]
    decide
  exact ⟨⟨h1, h2, h3⟩, claim_C2 "/r" fsC2w h1 h2 h3⟩

/-- Claim C3: for a completed run, the summary document is the tree followed
by exactly the rendered content blocks of `specBlocks`; the relative paths
of those blocks (in order) are exactly the relative paths of the records in
the lengths list; the sorted list written to the lengths document is a
permutation of those records (so the two documents carry the same set of
relative paths); and, for a well-formed filesystem, each relative path
occurs exactly once (the list of relative paths has no duplicates). -/
theorem claim_C3 (sp : String) (cs : List Entry)
    (hwf : wfNames cs = true) (ht : wfTree cs = true)
    (hok : (runAcc sp cs).aborted = false) :
    (runMain sp cs).summary =
      create_directory_tree sp cs "29ph50JZ7" ["Vm.json", "VmSafe.json"] ++
        String.join ((specBlocks "29ph50JZ7" ["Vm.json", "VmSafe.json"] sp cs).map
          renderBlock) ∧
    (specBlocks "29ph50JZ7" ["Vm.json", "VmSafe.json"] sp cs).map Prod.fst =
      (runAcc sp cs).lens.map (fun e => relpathFrom sp e.2) ∧
    List.Perm (sortDesc (runAcc sp cs).lens) (runAcc sp cs).lens ∧
    ((runAcc sp cs).lens.map (fun e => relpathFrom sp e.2)).Nodup := by
  refine ⟨?_, ?_, sortDesc_perm _, ?_⟩
  · rw [runMain_summary sp cs, runAcc_out_spec sp cs hok]
  · rw [runAcc_lens_spec sp cs hok]
    exact specBlocks_fst "29ph50JZ7" ["Vm.json", "VmSafe.json"] sp cs
  · rw [runAcc_lens_spec sp cs hok]
    exact specLens_relpaths_nodup "29ph50JZ7" ["Vm.json", "VmSafe.json"] sp cs hwf ht

/-- Claim C3, witness filesystem: a text file beside a subdirectory with
another text file. -/
def fsC3w : List Entry :=
  [.file ⟨"a.txt", some [104], some [104], 1⟩,
   .dir "sub" [.file ⟨"b.txt", some [105], some [105], 1⟩]]

/-- Claim C3's hypotheses are satisfiable on `fsC3w`. -/
theorem claim_C3_witness :
    (wfNames fsC3w = true ∧ wfTree fsC3w = true ∧
      (runAcc "/r" fsC3w).aborted = false) ∧
    (specBlocks "29ph50JZ7" ["Vm.json", "VmSafe.json"] "/r" fsC3w).map Prod.fst =
      (runAcc "/r" fsC3w).lens.map (fun e => relpathFrom "/r" e.2) := by
  have h1 : wfNames fsC3w = true := by
    simp only [fsC3w, wfNames]
    decide
  have h2 : wfTree fsC3w = true := by
    simp only [fsC3w, wfTree, wfSub, namesNodup]
    decide
  have h3 : (runAcc "/r" fsC3w).aborted = false := by
    simp only [fsC3w, runAcc, mainWalk, walkSub, walkFiles]
    decide
  exact ⟨⟨h1, h2, h3⟩, (claim_C3 "/r" fsC3w h1 h2 h3).2.1⟩

/-- Claim C4: the sorted lengths list of any run is non-increasing on every
adjacent pair (`List.Chain'`), and the sort is stable with no secondary key:
for every size `k`, the records of size `k` appear in the sorted list in
exactly their discovery order (the filter by `k` is unchanged by the
sort). -/
theorem claim_C4 (sp : String) (cs : List Entry) :
    (sortDesc (runAcc sp cs).lens).Chain' (fun a b => b.1 ≤ a.1) ∧
    ∀ k : Nat, (sortDesc (runAcc sp cs).lens).filter (fun e => e.1 == k) =
      (runAcc sp cs).lens.filter (fun e => e.1 == k) :=
  ⟨(sortDesc_pairwise (runAcc sp cs).lens).chain',
    fun k => sortDesc_filter (runAcc sp cs).lens k⟩

/-- Claim C5: the text-file classifier returns `true` exactly when the
classification-time open succeeded and the bytes read decode as UTF-8; in
every other case (I/O failure modelled by `read1 = none`, or a decode
failure) it returns `false`.  The function is total, so no error is
propagated to the caller. -/
theorem claim_C5 (fd : FileData) :
    is_text_file fd = true ↔
      ∃ bs, fd.read1 = some bs ∧ (decodeUtf8 bs).isSome = true := by
  rw [is_text_file]
  cases h : fd.read1 with
  | none => simp
  | some bs => simp

end PySummary

namespace PySummary

/-- Claim C6: the second walk aborts exactly when some qualifying file's
aggregation-time read fails (`specAggFail`: the re-open raises `IOError` or
the second decode raises `UnicodeDecodeError`, neither of which
`append_file_content` catches); and an aborted run produces no lengths
document at all, while the summary file keeps the tree plus whatever the
walk had appended before the failure (including the orphan path header of
the failing file). -/
theorem claim_C6 (sp : String) (cs : List Entry) :
    (runAcc sp cs).aborted =
      specAggFail "29ph50JZ7" ["Vm.json", "VmSafe.json"] cs ∧
    ((runAcc sp cs).aborted = true →
      (runMain sp cs).lengthsDoc = none ∧
      (runMain sp cs).summary =
        create_directory_tree sp cs "29ph50JZ7" ["Vm.json", "VmSafe.json"] ++
          (runAcc sp cs).out) :=
  ⟨runAcc_aborted sp cs,
    fun h => ⟨runMain_lengthsDoc_none sp cs h, runMain_summary sp cs⟩⟩

/-- Claim C6, witness filesystem: a file that classifies as text but whose
aggregation-time re-open fails (`read2 = none`, e.g. deleted between the
two opens). -/
def fsC6w : List Entry := [.file ⟨"f.txt", some [104], none, 1⟩]

/-- Claim C6's hypothesis is satisfiable: on `fsC6w` the run aborts, leaves
no lengths document, and the summary is the tree plus the partial output. -/
theorem claim_C6_witness :
    (runAcc "/r" fsC6w).aborted = true ∧
    (runMain "/r" fsC6w).lengthsDoc = none ∧
    (runMain "/r" fsC6w).summary =
      create_directory_tree "/r" fsC6w "29ph50JZ7" ["Vm.json", "VmSafe.json"] ++
        (runAcc "/r" fsC6w).out := by
  have h : (runAcc "/r" fsC6w).aborted = true := by
    simp only [fsC6w, runAcc, mainWalk, walkSub, walkFiles]
    decide
  exact ⟨h, ((claim_C6 "/r" fsC6w).2 h).1, ((claim_C6 "/r" fsC6w).2 h).2⟩

/-- Claim C7, scenario filesystem: `a.txt` with contents `"hello"` (5
bytes), `.hidden`, and `sub/b.txt` with contents `"world!"` (6 bytes). -/
def fsC7 : List Entry :=
  [.file ⟨"a.txt", some [104, 101, 108, 108, 111],
    some [104, 101, 108, 108, 111], 5⟩,
   .file ⟨".hidden", some [122], some [122], 3⟩,
   .dir "sub" [.file ⟨"b.txt", some [119, 111, 114, 108, 100, 33],
     some [119, 111, 114, 108, 100, 33], 6⟩]]

/-- Claim C7: on the scenario filesystem the summary is exactly the tree
followed by the two content blocks with `"hello"` and `"world!"` verbatim,
`.hidden` appears nowhere in it, and the lengths document has the header
`Total Length: 11` and lists `sub/b.txt` (6) before `a.txt` (5). -/
theorem claim_C7 :
    (runMain "/r" fsC7).summary =
      "r/\n    a.txt\n    sub/\n        b.txt\n\n\n\na.txt\n\"\"\"\nhello\n\"\"\"\n\n\n\nsub/b.txt\n\"\"\"\nworld!\n\"\"\"\n" ∧
    strHas (runMain "/r" fsC7).summary ".hidden" = false ∧
    (runMain "/r" fsC7).lengthsDoc =
      some "Total Length: 11\n\nsub/b.txt\n6\n\na.txt\n5\n\n" := by
  refine ⟨?_, ?_, ?_⟩ <;>
    · simp only [fsC7, runMain, mainWalk, walkSub, walkFiles,
        create_directory_tree, treeLines, treeSub]
      decide

/-- Claim C8: the lengths document of a completed run consists, as
newline-terminated lines, of exactly a `Total Length: <number>` header line,
a blank line, and then for each sorted record a block of three lines — its
relative path, its length, and a blank separator (the final `[]` of the
decomposition is the empty segment after the terminating newline). -/
theorem claim_C8 (sp : String) (cs : List Entry) (hsp : noNL sp.data = true)
    (hwf : wfNames cs = true) (hok : (runAcc sp cs).aborted = false) :
    ∃ (total : Nat) (d : String), (runMain sp cs).lengthsDoc = some d ∧
      splitNL d.data =
        ("Total Length: " ++ natRepr total).data :: [] ::
          ((sortDesc (runAcc sp cs).lens).flatMap
            (fun e => [(relpathFrom sp e.2).data, (natRepr e.1).data, []]) ++
            [[]]) := by
  refine ⟨((sortDesc (runAcc sp cs).lens).map Prod.fst).sum, _,
    runMain_lengthsDoc_some sp cs hok, ?_⟩
  refine splitNL_mkLengthsDoc sp _ _ ?_
  intro e he c hc
  have hmem : e ∈ (runAcc sp cs).lens := (sortDesc_perm _).mem_iff.mp he
  rw [runAcc_lens_spec sp cs hok] at hmem
  exact specLens_noNL "29ph50JZ7" ["Vm.json", "VmSafe.json"] sp cs
    ((noNL_iff sp.data).mp hsp) hwf e hmem c (relpathFrom_chars sp e.2 c hc)

/-- Claim C8, witness filesystem: two text files of different sizes. -/
def fsC8w : List Entry :=
  [.file ⟨"a.txt", some [104], some [104], 1⟩,
   .file ⟨"bb.txt", some [104, 104], some [104, 104], 2⟩]

/-- Claim C8's hypotheses are satisfiable on `fsC8w`. -/
theorem claim_C8_witness :
    (noNL "/r".data = true ∧ wfNames fsC8w = true ∧
      (runAcc "/r" fsC8w).aborted = false) ∧
    ∃ (total : Nat) (d : String), (runMain "/r" fsC8w).lengthsDoc = some d ∧
      splitNL d.data =
        ("Total Length: " ++ natRepr total).data :: [] ::
          ((sortDesc (runAcc "/r" fsC8w).lens).flatMap
            (fun e => [(relpathFrom "/r" e.2).data, (natRepr e.1).data, []]) ++
            [[]]) := by
  have h1 : noNL "/r".data = true := by decide
  have h2 : wfNames fsC8w = true := by
    simp only [fsC8w, wfNames]
    decide
  have h3 : (runAcc "/r" fsC8w).aborted = false := by
    simp only [fsC8w, runAcc, mainWalk, walkSub, walkFiles]
    decide
  exact ⟨⟨h1, h2, h3⟩, claim_C8 "/r" fsC8w h1 h2 h3⟩

/-- Claim C9, counterexample filesystem: below root `/a`, a directory `b`
containing a directory that is again named `a`. -/
def fsC9 : List Entry := [.dir "b" [.dir "a" []]]

/-- Claim C9 is false as stated: walking `/a` over `fsC9`, the directory
`/a/b/a` is at depth 2, so the claim requires indentation `4 * 2 = 8`; but
`root.replace(startpath, '')` deletes *both* occurrences of `"/a"` from
`"/a/b/a"`, leaving `"/b"` with one separator, so the code emits indentation
4.  The emitted lines differ from the depth-indexed ones exactly at that
directory. -/
theorem claim_C9_counterexample :
    treeLines "/a" "29ph50JZ7" ["Vm.json", "VmSafe.json"] fsC9 =
      [.dirLine 0 "a", .dirLine 4 "b", .dirLine 4 "a"] ∧
    specTreeLines "/a" "29ph50JZ7" ["Vm.json", "VmSafe.json"] fsC9 =
      [.dirLine 0 "a", .dirLine 4 "b", .dirLine 8 "a"] ∧
    treeLines "/a" "29ph50JZ7" ["Vm.json", "VmSafe.json"] fsC9 ≠
      specTreeLines "/a" "29ph50JZ7" ["Vm.json", "VmSafe.json"] fsC9 := by
  refine ⟨?_, ?_, ?_⟩ <;>
    · simp only [fsC9, treeLines, treeSub, specTreeLines, specTreeSub]
      decide

/-- Claim C9 (amended): the code computes the level of a directory by
deleting every occurrence of the root path string from the directory's full
path and counting the remaining separators.  Whenever the root path string
does not reoccur inside the relative portion of any visited directory path
(`noReoccur`) and entry names are well formed, this equals the true depth,
and every line's indentation is depth-proportional: `4 * d` for a directory
at depth `d` and `4 * (d + 1)` for its files, both as a line list and in the
rendered tree document. -/
theorem claim_C9 (sp identifier : String) (sk : List String) (cs : List Entry)
    (hsp : sp.data ≠ []) (hwf : wfNames cs = true)
    (hnr : noReoccur sp.data [] cs = true) :
    treeLines sp identifier sk cs = specTreeLines sp identifier sk cs ∧
    create_directory_tree sp cs identifier sk =
      String.join ((specTreeLines sp identifier sk cs).map renderTreeLine) := by
  have h := treeLines_eq_spec sp identifier sk cs hsp hwf hnr
  exact ⟨h, by rw [create_directory_tree, h]⟩

/-- Claim C9, witness filesystem: a directory with a file, with no
reoccurrence of the root path string. -/
def fsC9w : List Entry := [.dir "b" [.file ⟨"f.txt", some [104], some [104], 1⟩]]

/-- Claim C9's hypotheses are satisfiable on `fsC9w` under root `/a`. -/
theorem claim_C9_witness :
    (("/a" : String).data ≠ [] ∧ wfNames fsC9w = true ∧
      noReoccur "/a".data [] fsC9w = true) ∧
    treeLines "/a" "29ph50JZ7" ["Vm.json", "VmSafe.json"] fsC9w =
      specTreeLines "/a" "29ph50JZ7" ["Vm.json", "VmSafe.json"] fsC9w := by
  have h1 : ("/a" : String).data ≠ [] := by decide
  have h2 : wfNames fsC9w = true := by
    simp only [fsC9w, wfNames]
    decide
  have h3 : noReoccur "/a".data [] fsC9w = true := by
    simp only [fsC9w, noReoccur]
    decide
  exact ⟨⟨h1, h2, h3⟩,
    (claim_C9 "/a" "29ph50JZ7" ["Vm.json", "VmSafe.json"] fsC9w h1 h2 h3).1⟩

/-- Claim C10: when the traversal root's own basename is hidden or matches a
skip-set entry, the root's block (its directory line and its immediate file
lines) is omitted, so the tree output is exactly the lines of the pruned
subdirectory walk — the walk still descends into non-skipped
subdirectories; and the content pass is unaffected by the root's basename:
when it completes, its records are still exactly `specLens`, which includes
the descendants of the root's kept subdirectories. -/
theorem claim_C10 (sp : String) (cs : List Entry)
    (hroot : (strStarts (baseName sp) "." ||
      ["Vm.json", "VmSafe.json"].contains (baseName sp)) = true) :
    treeLines sp "29ph50JZ7" ["Vm.json", "VmSafe.json"] cs =
      treeSub sp "29ph50JZ7" ["Vm.json", "VmSafe.json"] sp cs ∧
    ((runAcc sp cs).aborted = false →
      (runAcc sp cs).lens = specLens "29ph50JZ7" ["Vm.json", "VmSafe.json"] sp cs) := by
  constructor
  · rw [treeLines]
    have hguard : (!(["Vm.json", "VmSafe.json"].contains (baseName sp)) &&
        !strStarts (baseName sp) ".") = false := by
      rcases Bool.or_eq_true _ _ |>.mp hroot with h | h
      · rw [h]
        simp
      · rw [h]
        simp
    rw [show treeBlock sp "29ph50JZ7" ["Vm.json", "VmSafe.json"] sp cs = [] from by
      simp only [treeBlock]
      rw [if_neg (by rw [hguard]; simp)]]
    rfl
  · exact fun h => runAcc_lens_spec sp cs h

/-- Claim C10, witness filesystem: a subdirectory with a file, under the
hidden root `/.cfg`. -/
def fsC10w : List Entry := [.dir "sub" [.file ⟨"f.txt", some [104], some [104], 1⟩]]

/-- Claim C10's hypothesis is satisfiable: under the hidden root `/.cfg` the
root block vanishes while the subdirectory's lines survive. -/
theorem claim_C10_witness :
    (strStarts (baseName "/.cfg") "." ||
      ["Vm.json", "VmSafe.json"].contains (baseName "/.cfg")) = true ∧
    treeLines "/.cfg" "29ph50JZ7" ["Vm.json", "VmSafe.json"] fsC10w =
      treeSub "/.cfg" "29ph50JZ7" ["Vm.json", "VmSafe.json"] "/.cfg" fsC10w := by
  have h : (strStarts (baseName "/.cfg") "." ||
      ["Vm.json", "VmSafe.json"].contains (baseName "/.cfg")) = true := by decide
  exact ⟨h, (claim_C10 "/.cfg" fsC10w h).1⟩

end PySummary
